/- Verification of the AFOLI continuum-identification engine of the
GoContinuum repository against its natural-language specification.

The definitions below are a shallow embedding of the relevant code in
`src/go_continuum/afoli.py` (the authoritative current implementation) and
`src/continuum_iterative.py` (the older script with the same algorithms).
Real-valued samples are rendered as exact rationals; a spectrum sample is
`Option ℚ`, with `none` standing for a non-finite (NaN/inf) value.  The
standard deviation `S = sqrt V` of a sample set is irrational in general,
so throughout the file the spread is carried as its exact square `V`
(the population variance), and every comparison of the source of the form
`x < C - k*S` (with `k ≥ 0`) is rendered exactly by the equivalent
squared comparison `x < C ∧ k^2 * V < (C - x)^2`. -/
import Mathlib

namespace GoCont

/-! ## Masks and basic mask operations -/

/-- A boolean mask over channel indices, `true` = excluded (as in numpy
masked arrays). -/
abbrev Mask := List Bool

/-- Read a mask entry; indices beyond the end read as `false` (unmasked),
mirroring that numpy code never accesses them. -/
def maskGet (m : Mask) (i : ℕ) : Bool := m.getD i false

/-- Build a mask of length `n` from an index predicate. -/
def buildMask (n : ℕ) (f : ℕ → Bool) : Mask := (List.range n).map f

/-- Slice assignment `m[a:b] = v` on a boolean array (numpy slices clamp to
the array length, so out-of-range parts of `[a, b)` are ignored). -/
def setRange (m : Mask) (a b : ℕ) (v : Bool) : Mask :=
  buildMask m.length (fun i => if a ≤ i ∧ i < b then v else maskGet m i)

/-- The ascending list of masked channel indices: `np.arange(m.size)[m]`. -/
def maskedIdx (m : Mask) : List ℕ := (List.range m.length).filter (fun i => maskGet m i)

/-- `np.split(xs, np.where(np.diff(xs) > t)[0] + 1)`: cut the list between
consecutive entries `x`, `y` whenever `y - x > t`.  (On the empty list
numpy returns one empty group; we return no group, which the source's
`for`-loops over the groups cannot distinguish.) -/
def gapGroups (t : ℕ) : List ℕ → List (List ℕ)
  | [] => []
  | [x] => [[x]]
  | x :: y :: rest =>
    match gapGroups t (y :: rest) with
    | [] => [[x]]
    | g :: gs => if t < y - x then [x] :: g :: gs else (x :: g) :: gs

/-- Modelled from the spec: `np.ma.clump_masked` (an external numpy
routine used by `group_chans` in afoli.py) returns the maximal contiguous
masked runs of the array, in ascending order, as slices.  We return the
runs as inclusive `(start, stop - 1)` channel-range pairs.  This matches
the repository's own implementation `group_chans` in
continuum_iterative.py, which groups the masked indices by splitting where
`np.diff != 1` (equivalently `> 1` on the strictly increasing index
list). -/
def group_chans (m : Mask) : List (ℕ × ℕ) :=
  (gapGroups 1 (maskedIdx m)).map fun g => (g.headI, g.getLastI)

/-- `filter_min_width` (continuum_iterative.py lines 27-35; the
`ndi.label`/`bincount` version of afoli.py lines 120-130 computes the same
thing): unless the whole mask is set, unmask every maximal masked run `g`
with `len(g) <= min_width` via `mask[g[0]:g[-1]+1] = False`. -/
def filter_min_width (m : Mask) (min_width : ℕ) : Mask :=
  if m.all (fun b => b) then m
  else
    (gapGroups 1 (maskedIdx m)).foldl
      (fun acc g => if g.length ≤ min_width then setRange acc g.headI (g.getLastI + 1) false else acc)
      m

/-- The "Filter consecutive" block of `find_continuum` (afoli.py lines
256-264): group the masked indices, splitting where `np.diff > min_gap+1`,
and for every group with more than one element set
`mask[group[0]:group[-1]] = True` (upper bound exclusive). -/
def min_gap_step (m : Mask) (min_gap : ℕ) : Mask :=
  (gapGroups (min_gap + 1) (maskedIdx m)).foldl
    (fun acc g => if 1 < g.length then setRange acc g.headI g.getLastI true else acc)
    m

/-- The minimum-gap sub-step as guarded in `find_continuum` (afoli.py line
257): `if min_gap is not None and min_gap > 1`, apply `min_gap_step`,
otherwise leave the mask alone. -/
def gapApply (mg : Option ℤ) (m : Mask) : Mask :=
  match mg with
  | some g => if 1 < g then min_gap_step m g.toNat else m
  | none => m

/-- Modelled from the spec: one step of `scipy.ndimage.binary_dilation`
(external scipy routine) with the default 1-D structuring element, which
"grows each masked band by one channel on both sides (standard binary
dilation)" (spec section 4.3). -/
def dilateOnce (m : Mask) : Mask :=
  buildMask m.length (fun i => maskGet m (i - 1) || maskGet m i || maskGet m (i + 1))

/-- Modelled from the spec: `scipy.ndimage.binary_dilation(mask,
iterations = d)` = `d` repetitions of the one-step dilation. -/
def binary_dilation (m : Mask) : ℕ → Mask
  | 0 => m
  | n + 1 => dilateOnce (binary_dilation m n)

/-! ## Spectra, masked spectra and statistics -/

/-- A spectrum sample: `none` models a non-finite (NaN/inf) float. -/
abbrev Spectrum := List (Option ℚ)

/-- A numpy masked array: data plus mask (`true` = masked). -/
structure MArr where
  data : Spectrum
  mask : Mask
deriving Repr, DecidableEq

/-- Well-formedness: the mask has one entry per channel. -/
def MArr.wf (s : MArr) : Prop := s.data.length = s.mask.length

/-- `np.ma.masked_invalid`: attach a mask marking the non-finite samples. -/
def masked_invalid (s : Spectrum) : MArr := ⟨s, s.map fun x => x.isNone⟩

/-- The unmasked sample values, in channel order.  (A `none` sample that is
unmasked would be dropped; the pipeline never produces one, since
`masked_invalid` masks all of them and later steps only add masks.) -/
def maVals (s : MArr) : List ℚ :=
  ((s.data.zip s.mask).filter (fun p => !p.2)).filterMap (fun p => p.1)

/-- Number of unmasked channels, `np.sum(~mask)`. -/
def nUnmasked (s : MArr) : ℕ := s.mask.count false

/-- `np.ma.mean`: arithmetic mean of the unmasked samples. -/
def meanQ (xs : List ℚ) : ℚ := xs.sum / (xs.length : ℚ)

/-- `np.ma.median`: middle element of the sorted values, or the average of
the two middle elements for an even count. -/
def medianQ (xs : List ℚ) : ℚ :=
  let s := xs.insertionSort (· ≤ ·)
  let n := xs.length
  if n = 0 then 0
  else if n % 2 = 1 then s.getD (n / 2) 0
  else (s.getD (n / 2 - 1) 0 + s.getD (n / 2) 0) / 2

/-- The exact square of `np.ma.std` (population standard deviation,
`ddof = 0`): the variance of the sample list. -/
def varQ (xs : List ℚ) : ℚ := ((xs.map (fun x => (x - meanQ xs) ^ 2)).sum) / (xs.length : ℚ)

/-- The regression points of `linreg_stat` (afoli.py lines 132-153): the
unmasked samples against their channel index recentred at the spectrum
midpoint, `xnew = arange(size)[~mask] - size/2`. -/
def linPoints (s : MArr) : List (ℚ × ℚ) :=
  (((List.range s.data.length).zip (s.data.zip s.mask)).filter (fun p => !p.2.2)).filterMap
    (fun p => p.2.1.map (fun v => ((p.1 : ℚ) - (s.data.length : ℚ) / 2, v)))

/-- Least-squares intercept, as computed by `scipy.stats.linregress`:
`intercept = ybar - slope * xbar` with `slope = Sxy / Sxx`. -/
def lsIntercept (pts : List (ℚ × ℚ)) : ℚ :=
  let n : ℚ := (pts.length : ℚ)
  let xbar := (pts.map Prod.fst).sum / n
  let ybar := (pts.map Prod.snd).sum / n
  let sxx := (pts.map (fun p => (p.1 - xbar) ^ 2)).sum
  let sxy := (pts.map (fun p => (p.1 - xbar) * (p.2 - ybar))).sum
  ybar - (sxy / sxx) * xbar

/-- `linreg_stat`: the intercept of the regression of the unmasked samples
against the recentred channel index. -/
def linreg_stat (s : MArr) : ℚ := lsIntercept (linPoints s)

/-- The closed enumeration of accepted center statistics (the `censtat`
dispatch of `afoli`, lines 461-468). -/
inductive CenStat
  | median
  | mean
  | linregress
deriving Repr, DecidableEq

/-- Apply a center statistic to a masked spectrum. -/
def cenApply : CenStat → MArr → ℚ
  | .median, s => medianQ (maVals s)
  | .mean, s => meanQ (maVals s)
  | .linregress, s => linreg_stat s

/-- The sigma-clip parameter set after `afoli`'s preprocessing: asymmetric
spread multipliers and a center-statistic selector. -/
structure ClipPars where
  sigma_lower : ℚ
  sigma_upper : ℚ
  cenfunc : CenStat
deriving Repr, DecidableEq

/-- Modelled from the spec (section 4.2): one iteration of the Robust
Iterative Filter (astropy's `sigma_clip` is an external collaborator):
compute the center statistic `C` and the spread `S` over the
currently-unmasked samples and newly mask any unmasked sample `x` with
`x < C - sigma_lower*S` or `x > C + sigma_upper*S`.  The comparison with
`S = sqrt V` is rendered exactly by the squared comparison (equivalent for
nonnegative multipliers); non-finite samples count as masked (astropy
masks them up front). -/
def clipPass (p : ClipPars) (s : MArr) : MArr :=
  let c := cenApply p.cenfunc s
  let v := varQ (maVals s)
  let out : Option ℚ → Bool := fun x =>
    match x with
    | none => true
    | some q =>
        decide ((q < c ∧ p.sigma_lower ^ 2 * v < (c - q) ^ 2) ∨
                (c < q ∧ p.sigma_upper ^ 2 * v < (q - c) ^ 2))
  ⟨s.data, s.data.zipWith (fun x b => b || out x) s.mask⟩

/-- Modelled from the spec (section 4.2): the Robust Iterative Filter with
`maxiters = n`: repeat the clip pass up to `n` times, stopping early as
soon as a pass masks no new sample. -/
def sigma_clip_iters (p : ClipPars) : ℕ → MArr → MArr
  | 0, s => s
  | n + 1, s =>
    let t := clipPass p s
    if t.mask = s.mask then s else sigma_clip_iters p n t

/-- Modelled from the spec (section 4.2): astropy `sigma_clip` with an
optional iteration bound; `none` (unbounded) iterates to convergence,
which `nUnmasked s + 1` passes always reach (each non-converged pass
strictly shrinks the unmasked set). -/
def sigma_clip (p : ClipPars) (maxiters : Option ℕ) (s : MArr) : MArr :=
  match maxiters with
  | some n => sigma_clip_iters p n s
  | none => sigma_clip_iters p (nUnmasked s + 1) s

/-! ## The Basic Masker and the continuum pipeline -/

/-- The Python exceptions the embedded code can surface. -/
inductive PyErr
  | valueError
  | attributeError
  | indexError
deriving Repr, DecidableEq

/-- `basic_masking` (afoli.py lines 155-197).  `flagchans` is carried
pre-parsed as inclusive channel-range pairs (its textual form in the
source is orchestration glue).  Steps, in source order: mask non-finite
samples (`masked_invalid`); raise `ValueError` when `edges >= size`; mask
the first and last `edges` channels when `edges > 0`; mask every
`flagchans` range `(c1, c2)` via `mask[c1:c2+1] = True`; then, for each
element of a non-empty `invalid_values`, the source evaluates
`np.ma.mask_where(...)` - an attribute that does not exist in numpy.ma
(the function is spelled `masked_where`) - so the first element raises
`AttributeError`. -/
def basic_masking (spectrum : Spectrum) (edges : ℕ)
    (flagchans : Option (List (ℕ × ℕ))) (invalid_values : Option (List ℚ)) :
    Except PyErr MArr :=
  let spec := masked_invalid spectrum
  if spectrum.length ≤ edges then .error .valueError
  else
    let m1 : Mask :=
      if 0 < edges then
        setRange (setRange spec.mask 0 edges true) (spec.mask.length - edges) spec.mask.length true
      else spec.mask
    let m2 : Mask :=
      match flagchans with
      | none => m1
      | some fcs => fcs.foldl (fun acc r => setRange acc r.1 (r.2 + 1) true) m1
    match invalid_values with
    | some (_ :: _) => .error .attributeError
    | _ => .ok ⟨spectrum, m2⟩

/-- `find_continuum` (afoli.py lines 199-280): basic masking, sigma clip,
optional dilation (range-checked against `N/2`), optional minimum-width
filter, optional minimum-gap filter; returns the refined masked spectrum
together with `cont = np.ma.mean(specfil)` and the (squared) spread
`np.ma.std(specfil)^2`. -/
def find_continuum (spectrum : Spectrum) (edges : ℕ) (dilate : ℕ)
    (min_width : ℕ) (min_gap : Option ℤ) (flagchans : Option (List (ℕ × ℕ)))
    (invalid_values : Option (List ℚ)) (pars : ClipPars) (niter : Option ℕ) :
    Except PyErr (MArr × ℚ × ℚ) :=
  match basic_masking spectrum edges flagchans invalid_values with
  | .error e => .error e
  | .ok spec =>
    let specfil := sigma_clip pars niter spec
    if specfil.data.length ≤ 2 * dilate then .error .valueError
    else
      let s1 := if 0 < dilate then MArr.mk specfil.data (binary_dilation specfil.mask dilate) else specfil
      let s2 := if 0 < min_width then MArr.mk s1.data (filter_min_width s1.mask min_width) else s1
      let s3 := MArr.mk s2.data (gapApply min_gap s2.mask)
      .ok (s3, meanQ (maVals s3), varQ (maVals s3))

/-! ## The Trajectory Recorder -/

/-- The `IterationTrajectory`: the four parallel sequences returned by
`get_sigma_clip_steps`.  `stds` carries the exact squares of the recorded
standard deviations. -/
structure Traj where
  npoints : List ℕ
  medians : List ℚ
  means : List ℚ
  stds : List ℚ
deriving Repr, DecidableEq

/-- The loop of `get_sigma_clip_steps` (afoli.py lines 296-309), with an
explicit fuel bound: at iteration count `i` run the filter with
`maxiters = i`; if the unmasked count differs from the last recorded one,
record `(count, median of the input spectrum over the filtered mask, mean,
squared std)` and continue with `i + 1`; otherwise stop. -/
def scStepsAux (p : ClipPars) (spec : MArr) : ℕ → ℕ → Traj → Traj
  | 0, _, acc => acc
  | fuel + 1, i, acc =>
    let filtered := sigma_clip_iters p i spec
    let npoint := nUnmasked filtered
    if acc.npoints.getLast? = some npoint then acc
    else
      scStepsAux p spec fuel (i + 1)
        ⟨acc.npoints ++ [npoint],
         acc.medians ++ [medianQ (maVals ⟨spec.data, filtered.mask⟩)],
         acc.means ++ [meanQ (maVals filtered)],
         acc.stds ++ [varQ (maVals filtered)]⟩

/-- `get_sigma_clip_steps` (afoli.py lines 282-312): record the statistics
of the initial masked spectrum, then sweep the iteration count from 1
until the unmasked count repeats.  The fuel `nUnmasked spec + 2` always
suffices (the count strictly decreases at every recorded step). -/
def get_sigma_clip_steps (p : ClipPars) (spec : MArr) : Traj :=
  scStepsAux p spec (nUnmasked spec + 2) 1
    ⟨[nUnmasked spec], [medianQ (maVals spec)], [meanQ (maVals spec)], [varQ (maVals spec)]⟩

/-! ## The frequency-range encoder -/

/-- The per-range body of the loop in `get_freq_flags`: numpy integer
indexing raises `IndexError` beyond the array end. -/
def freqRanges (freq : List ℚ) (delta : ℚ) : List (ℕ × ℕ) → Except PyErr (List (ℚ × ℚ))
  | [] => .ok []
  | r :: rs =>
    match freq[r.1]?, freq[r.2]? with
    | some fa, some fb =>
      match freqRanges freq delta rs with
      | .ok rest => .ok ((min fa fb - delta, max fa fb + delta) :: rest)
      | .error e => .error e
    | _, _ => .error .indexError

/-- `get_freq_flags` (afoli.py lines 101-118): group the masked channels,
take `delta = |freq[0] - freq[1]| / 2` (reading two entries of the
frequency axis unconditionally), and map each masked band `(a, b)` to the
frequency range `(min(freq[a], freq[b]) - delta, max(freq[a], freq[b]) +
delta)`.  No length comparison between mask and frequency axis occurs. -/
def get_freq_flags (freq : List ℚ) (spectrum : MArr) : Except PyErr (List (ℚ × ℚ)) :=
  let slices := group_chans spectrum.mask
  match freq[0]?, freq[1]? with
  | some f0, some f1 => freqRanges freq (|f0 - f1| / 2) slices
  | _, _ => .error .indexError

/-! ## Specification-side predicates

The following definitions transcribe the words of the spec (not the
code); the theorems below compare the code-derived functions against
them. -/

/-- Spec section 4.4: an inclusive channel range `(start, stop)` is a
maximal contiguous masked band: every channel inside masked, the channels
on either side unmasked (or off the end of the array). -/
def isMaxBand (m : Mask) (r : ℕ × ℕ) : Prop :=
  r.1 ≤ r.2 ∧ r.2 < m.length ∧
    (∀ j, r.1 ≤ j → j ≤ r.2 → maskGet m j = true) ∧
    (r.1 = 0 ∨ maskGet m (r.1 - 1) = false) ∧ maskGet m (r.2 + 1) = false

/-- Spec section 8 (Region-Encoder round trip): re-derive a mask of length
`n` from a list of inclusive channel ranges, marking exactly the channels
covered by some range. -/
def maskFromRanges (n : ℕ) (rs : List (ℕ × ℕ)) : Mask :=
  buildMask n (fun i => rs.any (fun r => decide (r.1 ≤ i ∧ i ≤ r.2)))

/-- Spec section 4.3 (minimum-gap filter): channel `i` lies in an unmasked
gap of at most `min_gap` channels between two masked channels with no
masked channel in between (i.e. between the facing ends of two maximal
masked bands). -/
def bridgedGap (m : Mask) (min_gap : ℕ) (i : ℕ) : Prop :=
  ∃ a b, a < i ∧ i < b ∧ maskGet m a = true ∧ maskGet m b = true ∧
    (∀ j, a < j → j < b → maskGet m j = false) ∧ b - a ≤ min_gap + 1

/-- Channel `i` lies inside a fully masked interval of width `> w`
(equivalently: the maximal masked band containing `i` is wider than
`w`). -/
def inWideBand (m : Mask) (w : ℕ) (i : ℕ) : Prop :=
  ∃ a b, a ≤ i ∧ i ≤ b ∧ w ≤ b - a ∧ ∀ j, a ≤ j → j ≤ b → maskGet m j = true

/-- The unmasked-count trajectory of the Robust Iterative Filter:
`cSeq p s i` is the number of unmasked channels after running the filter
with `maxiters = i` on `s` (the quantity recorded by
`get_sigma_clip_steps`). -/
def cSeq (p : ClipPars) (s : MArr) (i : ℕ) : ℕ := nUnmasked (sigma_clip_iters p i s)

/-! ## Basic facts about masks -/

theorem length_buildMask (n : ℕ) (f : ℕ → Bool) : (buildMask n f).length = n := by
  simp [buildMask]

theorem maskGet_buildMask (n : ℕ) (f : ℕ → Bool) (i : ℕ) :
    maskGet (buildMask n f) i = if i < n then f i else false := by
  by_cases h : i < n
  · rw [if_pos h]
    unfold maskGet buildMask
    rw [List.getD_eq_getElem?_getD, List.getElem?_map, List.getElem?_range h]
    rfl
  · rw [if_neg h]
    unfold maskGet buildMask
    rw [List.getD_eq_getElem?_getD, List.getElem?_eq_none (by simpa using Nat.le_of_not_lt h)]
    rfl

theorem maskGet_lt_length {m : Mask} {i : ℕ} (h : maskGet m i = true) : i < m.length := by
  by_contra hn
  rw [maskGet, List.getD_eq_getElem?_getD, List.getElem?_eq_none (Nat.le_of_not_lt hn)] at h
  exact Bool.false_ne_true h

theorem maskGet_eq_getElem {m : Mask} {i : ℕ} (h : i < m.length) :
    maskGet m i = m[i] := by
  rw [maskGet, List.getD_eq_getElem?_getD, List.getElem?_eq_getElem h]
  rfl

/-- Two masks of equal length with equal entries are equal. -/
theorem mask_ext {m m' : Mask} (hlen : m.length = m'.length)
    (h : ∀ i, maskGet m i = maskGet m' i) : m = m' := by
  apply List.ext_getElem hlen
  intro i h1 h2
  have := h i
  rwa [maskGet_eq_getElem h1, maskGet_eq_getElem h2] at this

theorem length_setRange (m : Mask) (a b : ℕ) (v : Bool) :
    (setRange m a b v).length = m.length := length_buildMask _ _

theorem maskGet_setRange (m : Mask) (a b : ℕ) (v : Bool) (i : ℕ) :
    maskGet (setRange m a b v) i =
      if i < m.length then (if a ≤ i ∧ i < b then v else maskGet m i) else false := by
  rw [setRange, maskGet_buildMask]

theorem mem_maskedIdx {m : Mask} {i : ℕ} : i ∈ maskedIdx m ↔ maskGet m i = true := by
  constructor
  · intro h
    exact (List.mem_filter.mp h).2
  · intro h
    exact List.mem_filter.mpr ⟨List.mem_range.mpr (maskGet_lt_length h), h⟩

theorem maskedIdx_sorted (m : Mask) : List.Pairwise (· < ·) (maskedIdx m) :=
  (List.pairwise_lt_range m.length).filter _

theorem maskedIdx_nodup (m : Mask) : (maskedIdx m).Nodup :=
  (List.nodup_range m.length).filter _

/-! ## C10: the minimum-width filter on a fully masked spectrum -/

/-- C10: for every mask in which every channel is masked, `filter_min_width`
returns the mask unchanged for every value of `min_width` (the `np.all`
early return), so the filter never unmasks a fully masked spectrum. -/
theorem filter_min_width_all_masked (m : Mask) (w : ℕ)
    (h : ∀ i, i < m.length → maskGet m i = true) : filter_min_width m w = m := by
  have hall : m.all (fun b => b) = true := by
    rw [List.all_eq_true]
    intro x hx
    obtain ⟨i, hi, rfl⟩ := List.mem_iff_getElem.mp hx
    have := h i hi
    rwa [maskGet_eq_getElem hi] at this
  simp [filter_min_width, hall]

/-- Witness for C10 at a concrete fully masked two-channel mask. -/
theorem filter_min_width_all_masked_witness :
    (∀ i, i < ([true, true] : Mask).length → maskGet [true, true] i = true) ∧
      filter_min_width [true, true] 5 = [true, true] :=
  ⟨by decide, filter_min_width_all_masked [true, true] 5 (by decide)⟩

/-! ## C2: the sentinel-value ("invalid values") sub-step of the Basic Masker -/

/-- C2 (code bug): the spec and the function's own docstring say that every
channel equal to a sentinel in `invalid_values` is masked and the call
returns; the code instead evaluates `np.ma.mask_where`, which does not
exist in `numpy.ma` (the routine is spelled `masked_where`), so
`basic_masking` raises `AttributeError` on the first sentinel whenever
`invalid_values` is non-empty.  Evaluation at a concrete failing input:
a finite 3-channel spectrum, `edges = 0`, sentinel list `[2]`. -/
theorem basic_masking_sentinel_raises :
    basic_masking [some 1, some 2, some 3] 0 none (some [2]) =
      .error .attributeError := rfl

/-! ## C3: the edge-exclusion range check of the Basic Masker -/

/-- C3: `basic_masking` fails with the range (`ValueError`) check exactly
when `edges >= N`; for `edges < N` it never raises on account of `edges`
(in particular, with no extra flag ranges and no sentinels it returns
normally).  The embedding is pure, so the input spectrum is returned
untouched inside the result and never mutated. -/
theorem basic_masking_edges_check (spectrum : Spectrum) (edges : ℕ) :
    (spectrum.length ≤ edges →
      ∀ fc iv, basic_masking spectrum edges fc iv = .error .valueError) ∧
    (edges < spectrum.length →
      (basic_masking spectrum edges none none = .ok ⟨spectrum,
        if 0 < edges then
          setRange (setRange (masked_invalid spectrum).mask 0 edges true)
            ((masked_invalid spectrum).mask.length - edges)
            (masked_invalid spectrum).mask.length true
        else (masked_invalid spectrum).mask⟩ ∧
       ∀ fc iv, basic_masking spectrum edges fc iv ≠ .error .valueError)) := by
  constructor
  · intro h fc iv
    simp [basic_masking, h]
  · intro h
    have h' : ¬ spectrum.length ≤ edges := Nat.not_le.mpr h
    refine ⟨by simp [basic_masking, h'], ?_⟩
    intro fc iv
    rcases iv with _ | ⟨_ | ⟨v, vs⟩⟩ <;> simp [basic_masking, h']

/-- Witness for C3 at concrete inputs on both sides of the check. -/
theorem basic_masking_edges_check_witness :
    ([some 1, some 2] : Spectrum).length ≤ 2 ∧
      basic_masking [some 1, some 2] 2 none none = .error .valueError ∧
      1 < ([some 1, some 2] : Spectrum).length ∧
      basic_masking [some 1, some 2] 1 none none ≠ .error .valueError :=
  ⟨by decide, (basic_masking_edges_check [some 1, some 2] 2).1 (by decide) none none,
    by decide, ((basic_masking_edges_check [some 1, some 2] 1).2 (by decide)).2 none none⟩

/-! ## Structure of `gapGroups` -/

theorem gapGroups_cons (t : ℕ) : ∀ (x : ℕ) (xs : List ℕ),
    ∃ s gs, gapGroups t (x :: xs) = (x :: s) :: gs
  | _, [] => ⟨[], [], rfl⟩
  | x, y :: rest => by
    obtain ⟨s, gs, h⟩ := gapGroups_cons t y rest
    by_cases hc : t < y - x
    · exact ⟨[], (y :: s) :: gs, by rw [gapGroups, h]; simp [hc]⟩
    · exact ⟨y :: s, gs, by rw [gapGroups, h]; simp [hc]⟩

theorem gapGroups_flatten (t : ℕ) : ∀ (xs : List ℕ), (gapGroups t xs).flatten = xs
  | [] => rfl
  | [_] => rfl
  | x :: y :: rest => by
    have ih := gapGroups_flatten t (y :: rest)
    obtain ⟨s, gs, h⟩ := gapGroups_cons t y rest
    rw [h] at ih
    by_cases hc : t < y - x
    · rw [gapGroups, h]
      simp only [hc, if_true]
      simpa using ih
    · rw [gapGroups, h]
      simp only [hc, if_false]
      simpa using ih

theorem gapGroups_ne_nil (t : ℕ) : ∀ (xs : List ℕ), ∀ g ∈ gapGroups t xs, g ≠ []
  | [], g, hg => absurd hg (by simp [gapGroups])
  | [x], g, hg => by
    simp only [gapGroups, List.mem_singleton] at hg
    simp [hg]
  | x :: y :: rest, g, hg => by
    obtain ⟨s, gs, h⟩ := gapGroups_cons t y rest
    rw [gapGroups, h] at hg
    by_cases hc : t < y - x
    · simp only [hc, if_true, List.mem_cons] at hg
      rcases hg with rfl | rfl | hg
      · simp
      · simp
      · exact gapGroups_ne_nil t (y :: rest) g (by rw [h]; exact List.mem_cons_of_mem _ hg)
    · simp only [hc, if_false, List.mem_cons] at hg
      rcases hg with rfl | hg
      · simp
      · exact gapGroups_ne_nil t (y :: rest) g (by rw [h]; exact List.mem_cons_of_mem _ hg)

theorem gapGroups_sublist (t : ℕ) : ∀ (xs : List ℕ), ∀ g ∈ gapGroups t xs, g.Sublist xs
  | [], g, hg => absurd hg (by simp [gapGroups])
  | [x], g, hg => by
    simp only [gapGroups, List.mem_singleton] at hg
    simp [hg]
  | x :: y :: rest, g, hg => by
    obtain ⟨s, gs, h⟩ := gapGroups_cons t y rest
    have hys : (y :: s).Sublist (y :: rest) :=
      gapGroups_sublist t (y :: rest) (y :: s) (by rw [h]; exact List.mem_cons_self _ _)
    rw [gapGroups, h] at hg
    by_cases hc : t < y - x
    · simp only [hc, if_true, List.mem_cons] at hg
      rcases hg with rfl | rfl | hg
      · exact (List.singleton_sublist.mpr (List.mem_cons_self _ _))
      · exact hys.cons _
      · exact (gapGroups_sublist t (y :: rest) g
          (by rw [h]; exact List.mem_cons_of_mem _ hg)).cons _
    · simp only [hc, if_false, List.mem_cons] at hg
      rcases hg with rfl | hg
      · exact hys.cons₂ _
      · exact (gapGroups_sublist t (y :: rest) g
          (by rw [h]; exact List.mem_cons_of_mem _ hg)).cons _

/-- Consecutive entries of one group differ by at most `t`. -/
theorem gapGroups_zip_le (t : ℕ) : ∀ (xs : List ℕ), ∀ g ∈ gapGroups t xs,
    ∀ p ∈ g.zip g.tail, p.2 - p.1 ≤ t
  | [], g, hg => absurd hg (by simp [gapGroups])
  | [x], g, hg => by
    simp only [gapGroups, List.mem_singleton] at hg
    subst hg
    simp
  | x :: y :: rest, g, hg => by
    obtain ⟨s, gs, h⟩ := gapGroups_cons t y rest
    rw [gapGroups, h] at hg
    by_cases hc : t < y - x
    · simp only [hc, if_true, List.mem_cons] at hg
      rcases hg with rfl | rfl | hg
      · simp
      · exact gapGroups_zip_le t (y :: rest) _ (by rw [h]; exact List.mem_cons_self _ _)
      · exact gapGroups_zip_le t (y :: rest) g (by rw [h]; exact List.mem_cons_of_mem _ hg)
    · simp only [hc, if_false, List.mem_cons] at hg
      rcases hg with rfl | hg
      · intro p hp
        rcases List.mem_cons.mp hp with rfl | hp'
        · simpa using Nat.le_of_not_lt hc
        · exact gapGroups_zip_le t (y :: rest) (y :: s)
            (by rw [h]; exact List.mem_cons_self _ _) p hp'
      · exact gapGroups_zip_le t (y :: rest) g (by rw [h]; exact List.mem_cons_of_mem _ hg)

/-- Consecutive entries of one group are consecutive entries of the input. -/
theorem gapGroups_zip_mem (t : ℕ) : ∀ (xs : List ℕ), ∀ g ∈ gapGroups t xs,
    ∀ p ∈ g.zip g.tail, p ∈ xs.zip xs.tail
  | [], g, hg => absurd hg (by simp [gapGroups])
  | [x], g, hg => by
    simp only [gapGroups, List.mem_singleton] at hg
    subst hg
    simp
  | x :: y :: rest, g, hg => by
    obtain ⟨s, gs, h⟩ := gapGroups_cons t y rest
    have hlift : ∀ p ∈ (y :: rest).zip rest, p ∈ (x :: y :: rest).zip (y :: rest) := by
      intro p hp
      exact List.mem_cons_of_mem _ hp
    rw [gapGroups, h] at hg
    by_cases hc : t < y - x
    · simp only [hc, if_true, List.mem_cons] at hg
      rcases hg with rfl | rfl | hg
      · simp
      · intro p hp
        exact hlift p (gapGroups_zip_mem t (y :: rest) _
          (by rw [h]; exact List.mem_cons_self _ _) p hp)
      · intro p hp
        exact hlift p (gapGroups_zip_mem t (y :: rest) g
          (by rw [h]; exact List.mem_cons_of_mem _ hg) p hp)
    · simp only [hc, if_false, List.mem_cons] at hg
      rcases hg with rfl | hg
      · intro p hp
        rcases List.mem_cons.mp hp with rfl | hp'
        · exact List.mem_cons_self _ _
        · exact hlift p (gapGroups_zip_mem t (y :: rest) (y :: s)
            (by rw [h]; exact List.mem_cons_self _ _) p hp')
      · intro p hp
        exact hlift p (gapGroups_zip_mem t (y :: rest) g
          (by rw [h]; exact List.mem_cons_of_mem _ hg) p hp)

/-- Every consecutive pair of the input at distance at most `t` survives
inside a single group. -/
theorem gapGroups_zip_cover (t : ℕ) : ∀ (xs : List ℕ), ∀ p ∈ xs.zip xs.tail,
    p.2 - p.1 ≤ t → ∃ g ∈ gapGroups t xs, p ∈ g.zip g.tail
  | [], p, hp => absurd hp (by simp)
  | [x], p, hp => absurd hp (by simp)
  | x :: y :: rest, p, hp => by
    intro hle
    obtain ⟨s, gs, h⟩ := gapGroups_cons t y rest
    rcases List.mem_cons.mp hp with rfl | hp'
    · have hc : ¬ t < y - x := Nat.not_lt.mpr hle
      refine ⟨x :: y :: s, ?_, by simp⟩
      rw [gapGroups, h]
      simp [hc]
    · obtain ⟨g, hg, hpg⟩ := gapGroups_zip_cover t (y :: rest) p hp' hle
      rw [gapGroups, h]
      rw [h] at hg
      by_cases hc : t < y - x
      · exact ⟨g, by simp only [hc, if_true]; exact List.mem_cons_of_mem _ hg, hpg⟩
      · rcases List.mem_cons.mp hg with rfl | hg'
        · refine ⟨x :: y :: s, by simp [hc], ?_⟩
          exact List.mem_cons_of_mem _ hpg
        · exact ⟨g, by simp only [hc, if_false]; exact List.mem_cons_of_mem _ hg', hpg⟩

/-! ## Sorted-list helpers -/

theorem headI_mem : ∀ {g : List ℕ}, g ≠ [] → g.headI ∈ g
  | [], h => absurd rfl h
  | _ :: _, _ => List.mem_cons_self _ _

theorem getLastI_mem : ∀ {g : List ℕ}, g ≠ [] → g.getLastI ∈ g
  | [], h => absurd rfl h
  | [x], _ => by simp [List.getLastI]
  | x :: y :: rest, _ => by
    have := getLastI_mem (g := y :: rest) (by simp)
    rw [List.getLastI_eq_getLast?] at this ⊢
    rw [List.getLast?_cons_cons]
    exact List.mem_cons_of_mem _ this

theorem headI_le_mem : ∀ {g : List ℕ}, List.Pairwise (· < ·) g → ∀ {x}, x ∈ g → g.headI ≤ x
  | [], _, x, hx => absurd hx (List.not_mem_nil x)
  | y :: ys, hs, x, hx => by
    rcases List.mem_cons.mp hx with rfl | hx'
    · simp
    · exact le_of_lt ((List.pairwise_cons.mp hs).1 x hx')

theorem mem_le_getLastI : ∀ {g : List ℕ}, List.Pairwise (· < ·) g → ∀ {x}, x ∈ g → x ≤ g.getLastI
  | [], _, x, hx => absurd hx (List.not_mem_nil x)
  | [y], _, x, hx => by
    rcases List.mem_cons.mp hx with rfl | hx'
    · simp [List.getLastI]
    · exact absurd hx' (List.not_mem_nil x)
  | y :: z :: rest, hs, x, hx => by
    have hlast : (y :: z :: rest).getLastI = (z :: rest).getLastI := by
      rw [List.getLastI_eq_getLast?, List.getLastI_eq_getLast?, List.getLast?_cons_cons]
    rw [hlast]
    rcases List.mem_cons.mp hx with rfl | hx'
    · have hz : x < z := (List.pairwise_cons.mp hs).1 z (List.mem_cons_self _ _)
      exact le_trans (le_of_lt hz)
        (mem_le_getLastI (List.pairwise_cons.mp hs).2 (List.mem_cons_self _ _))
    · exact mem_le_getLastI (List.pairwise_cons.mp hs).2 hx'

/-- On a strictly sorted list, membership in `zip xs xs.tail` characterizes
adjacent values: both present, ordered, with no list element in between. -/
theorem zip_tail_mem_iff : ∀ {xs : List ℕ}, List.Pairwise (· < ·) xs → ∀ {a b : ℕ},
    ((a, b) ∈ xs.zip xs.tail ↔
      a ∈ xs ∧ b ∈ xs ∧ a < b ∧ ∀ c ∈ xs, ¬(a < c ∧ c < b))
  | [], _, a, b => by simp
  | [x], _, a, b => by simp; omega
  | x :: y :: rest, hs, a, b => by
    have hs' : List.Pairwise (· < ·) (y :: rest) := (List.pairwise_cons.mp hs).2
    have hx : ∀ c ∈ y :: rest, x < c := (List.pairwise_cons.mp hs).1
    constructor
    · intro hp
      rcases List.mem_cons.mp hp with heq | hp'
      · obtain ⟨rfl, rfl⟩ := Prod.mk.injEq .. ▸ Prod.ext_iff.mp heq
        refine ⟨List.mem_cons_self _ _, List.mem_cons_of_mem _ (List.mem_cons_self _ _),
          hx y (List.mem_cons_self _ _), ?_⟩
        intro c hc hcb
        rcases List.mem_cons.mp hc with rfl | hc'
        · exact absurd hcb.1 (lt_irrefl c)
        · exact absurd hcb.2 (not_lt.mpr (headI_le_mem hs' hc'))
      · have := (zip_tail_mem_iff hs' (a := a) (b := b)).mp hp'
        refine ⟨List.mem_cons_of_mem _ this.1, List.mem_cons_of_mem _ this.2.1, this.2.2.1, ?_⟩
        intro c hc hcb
        rcases List.mem_cons.mp hc with rfl | hc'
        · exact absurd hcb.1 (not_lt.mpr (le_of_lt (hx a this.1)))
        · exact this.2.2.2 c hc' hcb
    · rintro ⟨ha, hb, hab, hbet⟩
      rcases List.mem_cons.mp ha with rfl | ha'
      · have hb' : b ∈ y :: rest := by
          rcases List.mem_cons.mp hb with rfl | hb'
          · exact absurd hab (lt_irrefl b)
          · exact hb'
        have hby : b = y := by
          by_contra hne
          have hyb : y < b := lt_of_le_of_ne (headI_le_mem hs' hb') (Ne.symm hne)
          exact hbet y (List.mem_cons_of_mem _ (List.mem_cons_self _ _))
            ⟨hx y (List.mem_cons_self _ _), hyb⟩
        subst hby
        exact List.mem_cons_self _ _
      · have hb' : b ∈ y :: rest := by
          rcases List.mem_cons.mp hb with rfl | hb'
          · exact absurd (hx a ha') (not_lt.mpr (le_of_lt hab))
          · exact hb'
        refine List.mem_cons_of_mem _ ((zip_tail_mem_iff hs' (a := a) (b := b)).mpr
          ⟨ha', hb', hab, ?_⟩)
        intro c hc
        exact hbet c (List.mem_cons_of_mem _ hc)

/-- On a sorted list, any value between the head and the last element sits
between some adjacent pair. -/
theorem exists_adjacent : ∀ {g : List ℕ}, List.Pairwise (· < ·) g → ∀ {i : ℕ},
    g.headI ≤ i → i < g.getLastI → ∃ p ∈ g.zip g.tail, p.1 ≤ i ∧ i < p.2
  | [], _, i, _, h2 => by simp [List.getLastI] at h2
  | [x], _, i, h1, h2 => by
    simp only [List.headI] at h1
    simp only [List.getLastI] at h2
    exact absurd h2 (not_lt.mpr h1)
  | x :: y :: rest, hs, i, h1, h2 => by
    have hs' : List.Pairwise (· < ·) (y :: rest) := (List.pairwise_cons.mp hs).2
    by_cases hy : i < y
    · exact ⟨(x, y), List.mem_cons_self _ _, h1, hy⟩
    · have hlast : (x :: y :: rest).getLastI = (y :: rest).getLastI := by
        rw [List.getLastI_eq_getLast?, List.getLastI_eq_getLast?, List.getLast?_cons_cons]
      obtain ⟨p, hp, hpi⟩ := exists_adjacent hs' (i := i) (not_lt.mp hy) (hlast ▸ h2)
      exact ⟨p, List.mem_cons_of_mem _ hp, hpi⟩

/-! ## Groups of contiguous indices (`t = 1`) are full intervals -/

/-- In a pairwise-disjoint list of lists, membership determines the part. -/
theorem disjoint_mem_unique : ∀ {L : List (List ℕ)}, List.Pairwise List.Disjoint L →
    ∀ {g g'}, g ∈ L → g' ∈ L → ∀ {a}, a ∈ g → a ∈ g' → g = g' := by
  intro L
  induction L with
  | nil => intro _ g g' hg; simp at hg
  | cons h L ih =>
    intro hp g g' hg hg' a ha ha'
    have hd := List.pairwise_cons.mp hp
    rcases List.mem_cons.mp hg with rfl | hg1 <;> rcases List.mem_cons.mp hg' with rfl | hg2
    · rfl
    · exact absurd ha' (hd.1 g' hg2 ha)
    · exact absurd ha (hd.1 g hg1 ha')
    · exact ih hd.2 hg1 hg2 ha ha'

/-- Each element of the input lies in exactly one group. -/
theorem gapGroups_mem_unique {t : ℕ} {xs : List ℕ} (hnd : xs.Nodup)
    {g g' : List ℕ} (hg : g ∈ gapGroups t xs) (hg' : g' ∈ gapGroups t xs)
    {a : ℕ} (ha : a ∈ g) (ha' : a ∈ g') : g = g' := by
  have hj : (gapGroups t xs).flatten.Nodup := by rw [gapGroups_flatten]; exact hnd
  rw [List.nodup_flatten] at hj
  exact disjoint_mem_unique hj.2 hg hg' ha ha'

theorem gapGroups_sorted {t : ℕ} {xs : List ℕ} (hs : List.Pairwise (· < ·) xs)
    {g : List ℕ} (hg : g ∈ gapGroups t xs) : List.Pairwise (· < ·) g :=
  hs.sublist (gapGroups_sublist t xs g hg)

/-- A `t = 1` group of a strictly sorted list is the full integer interval
from its head to its last element. -/
theorem gapGroups_one_interval {xs : List ℕ} (hs : List.Pairwise (· < ·) xs)
    {g : List ℕ} (hg : g ∈ gapGroups 1 xs) :
    g = List.Ico g.headI (g.getLastI + 1) := by
  have hgs : List.Pairwise (· < ·) g := gapGroups_sorted hs hg
  have hne : g ≠ [] := gapGroups_ne_nil 1 xs g hg
  have hmem : ∀ k, k ∈ g ↔ g.headI ≤ k ∧ k < g.getLastI + 1 := by
    intro k
    constructor
    · intro hk
      exact ⟨headI_le_mem hgs hk, Nat.lt_succ_of_le (mem_le_getLastI hgs hk)⟩
    · rintro ⟨h1, h2⟩
      rcases Nat.lt_succ_iff_lt_or_eq.mp h2 with h2' | rfl
      · obtain ⟨p, hp, hp1, hp2⟩ := exists_adjacent hgs h1 h2'
        have hle := gapGroups_zip_le 1 xs g hg p hp
        have hpa : p.1 ∈ g := (List.of_mem_zip hp).1
        have : k = p.1 := by omega
        exact this ▸ hpa
      · exact getLastI_mem hne
  have hnd : g.Nodup := hgs.nodup
  refine List.eq_of_perm_of_sorted ?_ (hgs.imp le_of_lt) ((List.Ico.pairwise_lt _ _).imp le_of_lt)
  rw [List.perm_ext_iff_of_nodup hnd (List.Ico.nodup _ _)]
  intro a
  rw [hmem a, List.Ico.mem]

/-- Groups listed consecutively have strictly separated intervals. -/
theorem gapGroups_chain {t : ℕ} {xs : List ℕ} (hs : List.Pairwise (· < ·) xs) :
    List.Chain' (fun g g' => g.getLastI < g'.headI) (gapGroups t xs) := by
  have key : ∀ (L : List (List ℕ)), List.Pairwise (· < ·) L.flatten →
      (∀ g ∈ L, g ≠ []) → List.Chain' (fun g g' => g.getLastI < g'.headI) L := by
    intro L
    induction L with
    | nil => intro _ _; simp
    | cons g L ih =>
      intro hflat hnil
      have hsplit := List.pairwise_append.mp (by simpa using hflat)
      refine List.chain'_cons'.mpr ⟨?_, ih hsplit.2.1 (fun g' hg' => hnil g' (List.mem_cons_of_mem _ hg'))⟩
      intro g₂ hg₂
      have hg₂mem : g₂ ∈ L := List.mem_of_mem_head? hg₂
      have h1 : g.getLastI ∈ g := getLastI_mem (hnil g (List.mem_cons_self _ _))
      have h2 : g₂.headI ∈ L.flatten := by
        rw [List.mem_flatten]
        exact ⟨g₂, hg₂mem, headI_mem (hnil g₂ (List.mem_cons_of_mem _ hg₂mem))⟩
      exact hsplit.2.2 _ h1 _ h2
  exact key _ (by rw [gapGroups_flatten]; exact hs) (gapGroups_ne_nil t xs)

/-! ## The Region Encoder: `group_chans` -/

/-- Two masked channels at distance one lie in the same contiguity group
(`t = 1`); more generally, two adjacent masked channels at distance at
most `t + 1` share a `gapGroups t`-group. -/
theorem adjacent_same_group {m : Mask} {t a b : ℕ} (hab : a < b)
    (ha : maskGet m a = true) (hb : maskGet m b = true)
    (hbet : ∀ j, a < j → j < b → maskGet m j = false) (hle : b - a ≤ t) :
    ∃ g ∈ gapGroups t (maskedIdx m), a ∈ g ∧ b ∈ g := by
  have hzip : (a, b) ∈ (maskedIdx m).zip (maskedIdx m).tail := by
    rw [zip_tail_mem_iff (maskedIdx_sorted m)]
    refine ⟨mem_maskedIdx.mpr ha, mem_maskedIdx.mpr hb, hab, ?_⟩
    intro c hc ⟨h1, h2⟩
    have := hbet c h1 h2
    rw [mem_maskedIdx.mp hc] at this
    exact Bool.noConfusion this
  obtain ⟨g, hg, hpg⟩ := gapGroups_zip_cover t (maskedIdx m) (a, b) hzip hle
  exact ⟨g, hg, (List.of_mem_zip hpg).1, List.mem_of_mem_tail (List.of_mem_zip hpg).2⟩

theorem group_chans_sound {m : Mask} {r : ℕ × ℕ} (hr : r ∈ group_chans m) :
    isMaxBand m r := by
  obtain ⟨g, hg, hfr⟩ := List.mem_map.mp hr
  subst hfr
  have hs := maskedIdx_sorted m
  have hgs := gapGroups_sorted hs hg
  have hne := gapGroups_ne_nil 1 (maskedIdx m) g hg
  have hsub := gapGroups_sublist 1 (maskedIdx m) g hg
  have hmemx : ∀ j ∈ g, maskGet m j = true := fun j hj =>
    mem_maskedIdx.mp (hsub.subset hj)
  have hinterval := gapGroups_one_interval hs hg
  have hcov : ∀ j, g.headI ≤ j → j ≤ g.getLastI → j ∈ g := by
    intro j h1 h2
    rw [hinterval]
    exact List.Ico.mem.mpr ⟨h1, Nat.lt_succ_of_le h2⟩
  have hl_mem : g.getLastI ∈ g := getLastI_mem hne
  have hh_mem : g.headI ∈ g := headI_mem hne
  refine ⟨headI_le_mem hgs hl_mem, maskGet_lt_length (hmemx _ hl_mem),
    fun j h1 h2 => hmemx j (hcov j h1 h2), ?_, ?_⟩
  · by_cases h0 : g.headI = 0
    · exact Or.inl h0
    · refine Or.inr ?_
      by_contra hmk
      have hmk' : maskGet m (g.headI - 1) = true := by
        cases hh : maskGet m (g.headI - 1)
        · exact absurd hh hmk
        · rfl
      obtain ⟨g₂, hg₂, hmem₂, hmem₂'⟩ := adjacent_same_group (t := 1)
        (Nat.sub_lt (Nat.pos_of_ne_zero h0) Nat.one_pos) hmk' (hmemx _ hh_mem)
        (by intro j hj1 hj2; exfalso; omega) (by omega)
      have heq := gapGroups_mem_unique (maskedIdx_nodup m) hg hg₂ hh_mem hmem₂'
      subst heq
      have := headI_le_mem hgs hmem₂
      omega
  · by_contra hmk
    have hmk' : maskGet m (g.getLastI + 1) = true := by
      cases hh : maskGet m (g.getLastI + 1)
      · exact absurd hh hmk
      · rfl
    obtain ⟨g₂, hg₂, hmem₂, hmem₂'⟩ := adjacent_same_group (t := 1)
      (Nat.lt_succ_self _) (hmemx _ hl_mem) hmk'
      (by intro j hj1 hj2; exfalso; omega) (by omega)
    have heq := gapGroups_mem_unique (maskedIdx_nodup m) hg hg₂ hl_mem hmem₂
    subst heq
    have := mem_le_getLastI hgs hmem₂'
    omega

/-- A fully masked interval is covered by a single contiguity group. -/
theorem interval_in_one_group : ∀ (d : ℕ) (m : Mask) (a b : ℕ), b = a + d →
    (∀ j, a ≤ j → j ≤ b → maskGet m j = true) →
    ∃ g ∈ gapGroups 1 (maskedIdx m), ∀ j, a ≤ j → j ≤ b → j ∈ g
  | 0, m, a, b, hb, hall => by
    have ha : a ∈ maskedIdx m := mem_maskedIdx.mpr (hall a le_rfl (by omega))
    have hfl : a ∈ (gapGroups 1 (maskedIdx m)).flatten := by
      rw [gapGroups_flatten]; exact ha
    obtain ⟨g, hg, hag⟩ := List.mem_flatten.mp hfl
    exact ⟨g, hg, fun j h1 h2 => by
      have hj : j = a := by omega
      exact hj ▸ hag⟩
  | d + 1, m, a, b, hb, hall => by
    obtain ⟨g, hg, hcov⟩ := interval_in_one_group d m a (a + d) rfl
      (fun j h1 h2 => hall j h1 (by omega))
    obtain ⟨g₂, hg₂, hmem₂, hmem₂'⟩ := adjacent_same_group (t := 1)
      (a := a + d) (b := a + d + 1) (Nat.lt_succ_self _)
      (hall _ (by omega) (by omega)) (hall _ (by omega) (by omega))
      (by intro j hj1 hj2; exfalso; omega) (by omega)
    have heq := gapGroups_mem_unique (maskedIdx_nodup m) hg hg₂
      (hcov (a + d) (by omega) (by omega)) hmem₂
    subst heq
    refine ⟨g, hg, fun j h1 h2 => ?_⟩
    rcases Nat.lt_or_ge j (a + d + 1) with h | h
    · exact hcov j h1 (by omega)
    · have hj : j = a + d + 1 := by omega
      exact hj ▸ hmem₂'

theorem group_chans_complete {m : Mask} {r : ℕ × ℕ} (hr : isMaxBand m r) :
    r ∈ group_chans m := by
  obtain ⟨hab, hblen, hall, hleft, hright⟩ := hr
  obtain ⟨g, hg, hcov⟩ := interval_in_one_group (r.2 - r.1) m r.1 r.2 (by omega) hall
  have hs := maskedIdx_sorted m
  have hgs := gapGroups_sorted hs hg
  have hsub := gapGroups_sublist 1 (maskedIdx m) g hg
  have hmemx : ∀ j ∈ g, maskGet m j = true := fun j hj => mem_maskedIdx.mp (hsub.subset hj)
  have hinterval := gapGroups_one_interval hs hg
  have ha_mem : r.1 ∈ g := hcov r.1 le_rfl hab
  have hb_mem : r.2 ∈ g := hcov r.2 hab le_rfl
  have hh : g.headI = r.1 := by
    have h1 : g.headI ≤ r.1 := headI_le_mem hgs ha_mem
    rcases Nat.lt_or_ge g.headI r.1 with hlt | hge
    · exfalso
      have hm : r.1 - 1 ∈ g := by
        rw [hinterval]
        refine List.Ico.mem.mpr ⟨by omega, ?_⟩
        have := mem_le_getLastI hgs ha_mem
        omega
      have := hmemx _ hm
      rcases hleft with h0 | hfalse
      · omega
      · rw [this] at hfalse
        exact Bool.noConfusion hfalse
    · omega
  have hl : g.getLastI = r.2 := by
    have h1 : r.2 ≤ g.getLastI := mem_le_getLastI hgs hb_mem
    rcases Nat.lt_or_ge r.2 g.getLastI with hlt | hge
    · exfalso
      have hm : r.2 + 1 ∈ g := by
        rw [hinterval]
        refine List.Ico.mem.mpr ⟨?_, by omega⟩
        have := headI_le_mem hgs hb_mem
        omega
      have := hmemx _ hm
      rw [this] at hright
      exact Bool.noConfusion hright
    · omega
  refine List.mem_map.mpr ⟨g, hg, ?_⟩
  rw [hh, hl]

theorem group_chans_chain (m : Mask) :
    List.Chain' (fun r s : ℕ × ℕ => r.2 < s.1) (group_chans m) := by
  rw [group_chans, List.chain'_map]
  exact gapGroups_chain (maskedIdx_sorted m)

theorem group_chans_roundtrip (m : Mask) :
    maskFromRanges m.length (group_chans m) = m := by
  apply mask_ext
  · rw [maskFromRanges, length_buildMask]
  · intro i
    rw [maskFromRanges, maskGet_buildMask]
    by_cases hi : i < m.length
    · rw [if_pos hi]
      cases hmi : maskGet m i
      · rw [List.any_eq_false]
        intro r hr
        simp only [decide_eq_true_eq, not_and, not_le]
        intro h1
        by_contra h2
        have := (group_chans_sound hr).2.2.1 i h1 (Nat.le_of_not_lt (by simpa using h2))
        rw [hmi] at this
        exact Bool.false_ne_true this
      · rw [List.any_eq_true]
        have : i ∈ (gapGroups 1 (maskedIdx m)).flatten := by
          rw [gapGroups_flatten]
          exact mem_maskedIdx.mpr hmi
        obtain ⟨g, hg, hig⟩ := List.mem_flatten.mp this
        have hgs := gapGroups_sorted (maskedIdx_sorted m) hg
        refine ⟨(g.headI, g.getLastI), List.mem_map.mpr ⟨g, hg, rfl⟩, ?_⟩
        simp only [decide_eq_true_eq]
        exact ⟨headI_le_mem hgs hig, mem_le_getLastI hgs hig⟩
    · rw [if_neg hi, maskGet, List.getD_eq_getElem?_getD,
        List.getElem?_eq_none (Nat.le_of_not_lt hi)]
      rfl

theorem group_chans_empty {m : Mask} (h : ∀ i, maskGet m i = false) :
    group_chans m = [] := by
  have : maskedIdx m = [] := by
    rw [maskedIdx, List.filter_eq_nil_iff]
    intro i _
    rw [h i]
    simp
  rw [group_chans, this]
  rfl

/-- C8: `group_chans` returns exactly the maximal contiguous masked bands,
in ascending channel order (the empty sequence when nothing is masked),
and re-deriving a mask from the returned inclusive ranges reproduces the
original mask exactly. -/
theorem group_chans_spec (m : Mask) :
    (∀ r ∈ group_chans m, isMaxBand m r) ∧
    (∀ r, isMaxBand m r → r ∈ group_chans m) ∧
    List.Chain' (fun r s : ℕ × ℕ => r.2 < s.1) (group_chans m) ∧
    ((∀ i, maskGet m i = false) → group_chans m = []) ∧
    maskFromRanges m.length (group_chans m) = m :=
  ⟨fun _ hr => group_chans_sound hr, fun _ hr => group_chans_complete hr,
    group_chans_chain m, group_chans_empty, group_chans_roundtrip m⟩

/-- Witness for C8 at a concrete mask with two bands. -/
theorem group_chans_spec_witness :
    (1, 2) ∈ group_chans [false, true, true, false, true] ∧
      isMaxBand [false, true, true, false, true] (4, 4) ∧
      (4, 4) ∈ group_chans [false, true, true, false, true] ∧
      maskFromRanges 5 (group_chans [false, true, true, false, true]) =
        [false, true, true, false, true] :=
  have hband : isMaxBand [false, true, true, false, true] (4, 4) := by
    refine ⟨by decide, by decide, ?_, by decide, by decide⟩
    intro j h1 h2
    have hj : j = 4 := by omega
    subst hj
    decide
  ⟨by decide, hband,
    (group_chans_spec [false, true, true, false, true]).2.1 (4, 4) hband,
    (group_chans_spec [false, true, true, false, true]).2.2.2.2⟩

/-! ## The minimum-gap filter (C5) -/

theorem maskGet_eq_false_of_le {m : Mask} {i : ℕ} (h : m.length ≤ i) :
    maskGet m i = false := by
  cases hh : maskGet m i
  · rfl
  · exact absurd (maskGet_lt_length hh) (Nat.not_lt.mpr h)

theorem one_lt_length_of_two_mem {g : List ℕ} {a b : ℕ} (ha : a ∈ g) (hb : b ∈ g)
    (hne : a ≠ b) : 1 < g.length := by
  match g with
  | [] => exact absurd ha (List.not_mem_nil a)
  | [x] =>
    rw [List.mem_singleton] at ha hb
    exact absurd (ha.trans hb.symm) hne
  | x :: y :: rest => simp

theorem length_minGapFold : ∀ (groups : List (List ℕ)) (m : Mask),
    (groups.foldl (fun acc g =>
      if 1 < g.length then setRange acc g.headI g.getLastI true else acc) m).length = m.length
  | [], _ => rfl
  | g :: gs, m => by
    rw [List.foldl_cons]
    rw [length_minGapFold gs]
    by_cases h : 1 < g.length
    · rw [if_pos h, length_setRange]
    · rw [if_neg h]

theorem maskGet_minGapFold_iff : ∀ (groups : List (List ℕ)) (m : Mask) (i : ℕ),
    (maskGet (groups.foldl (fun acc g =>
        if 1 < g.length then setRange acc g.headI g.getLastI true else acc) m) i = true ↔
      maskGet m i = true ∨
        (i < m.length ∧ ∃ g ∈ groups, 1 < g.length ∧ g.headI ≤ i ∧ i < g.getLastI))
  | [], m, i => by simp
  | g :: gs, m, i => by
    rw [List.foldl_cons]
    have hmono : maskGet m i = true → i < m.length := maskGet_lt_length
    by_cases hlen : 1 < g.length
    · rw [if_pos hlen, maskGet_minGapFold_iff gs, maskGet_setRange, length_setRange]
      by_cases hi : i < m.length
      · rw [if_pos hi]
        by_cases hin : g.headI ≤ i ∧ i < g.getLastI
        · simp only [if_pos hin]
          constructor
          · intro _
            exact Or.inr ⟨hi, g, List.mem_cons_self _ _, hlen, hin⟩
          · intro _
            simp
        · simp only [if_neg hin]
          constructor
          · rintro (h | ⟨_, g', hg', hrest⟩)
            · exact Or.inl h
            · exact Or.inr ⟨hi, g', List.mem_cons_of_mem _ hg', hrest⟩
          · rintro (h | ⟨_, g', hg', hrest⟩)
            · exact Or.inl h
            · rcases List.mem_cons.mp hg' with rfl | hg''
              · exact absurd ⟨hrest.2.1, hrest.2.2⟩ hin
              · exact Or.inr ⟨hi, g', hg'', hrest⟩
      · rw [if_neg hi]
        have hmf : maskGet m i = false := maskGet_eq_false_of_le (Nat.le_of_not_lt hi)
        simp [hmf, hi]
    · rw [if_neg hlen, maskGet_minGapFold_iff gs]
      constructor
      · rintro (h | ⟨hi, g', hg', hrest⟩)
        · exact Or.inl h
        · exact Or.inr ⟨hi, g', List.mem_cons_of_mem _ hg', hrest⟩
      · rintro (h | ⟨hi, g', hg', hrest⟩)
        · exact Or.inl h
        · rcases List.mem_cons.mp hg' with rfl | hg''
          · exact absurd hrest.1 hlen
          · exact Or.inr ⟨hi, g', hg'', hrest⟩

theorem length_min_gap_step (m : Mask) (t : ℕ) :
    (min_gap_step m t).length = m.length := length_minGapFold _ _

/-- The pointwise behaviour of the source's minimum-gap block equals the
spec's description: a channel ends up masked iff it was masked or it lies
in a small enough unmasked gap between two masked channels. -/
theorem min_gap_step_char (m : Mask) (t : ℕ) (i : ℕ) :
    (maskGet (min_gap_step m t) i = true ↔ maskGet m i = true ∨ bridgedGap m t i) := by
  rw [min_gap_step, maskGet_minGapFold_iff]
  constructor
  · rintro (h | ⟨hi, g, hg, hlen, hhi, hil⟩)
    · exact Or.inl h
    · by_cases hmi : maskGet m i = true
      · exact Or.inl hmi
      · refine Or.inr ?_
        have hs := maskedIdx_sorted m
        have hgs := gapGroups_sorted hs hg
        have hsub := gapGroups_sublist (t + 1) (maskedIdx m) g hg
        obtain ⟨p, hp, hp1, hp2⟩ := exists_adjacent hgs hhi hil
        have hpa : p.1 ∈ g := (List.of_mem_zip hp).1
        have hpb : p.2 ∈ g := List.mem_of_mem_tail (List.of_mem_zip hp).2
        have hma : maskGet m p.1 = true := mem_maskedIdx.mp (hsub.subset hpa)
        have hmb : maskGet m p.2 = true := mem_maskedIdx.mp (hsub.subset hpb)
        have hane : p.1 ≠ i := fun he => hmi (he ▸ hma)
        have hzx := gapGroups_zip_mem (t + 1) (maskedIdx m) g hg p hp
        have hadj := (zip_tail_mem_iff hs).mp (by
          have : p = (p.1, p.2) := rfl
          rw [this] at hzx
          exact hzx)
        refine ⟨p.1, p.2, lt_of_le_of_ne hp1 hane, hp2, hma, hmb, ?_, ?_⟩
        · intro j hj1 hj2
          cases hmj : maskGet m j
          · rfl
          · exact absurd ⟨hj1, hj2⟩ (hadj.2.2.2 j (mem_maskedIdx.mpr hmj))
        · exact gapGroups_zip_le (t + 1) (maskedIdx m) g hg p hp
  · rintro (h | ⟨a, b, hai, hib, hma, hmb, hbet, hle⟩)
    · exact Or.inl h
    · refine Or.inr ⟨lt_trans hib (maskGet_lt_length hmb), ?_⟩
      obtain ⟨g, hg, hag, hbg⟩ := adjacent_same_group (t := t + 1) (lt_trans hai hib)
        hma hmb hbet hle
      have hgs := gapGroups_sorted (maskedIdx_sorted m) hg
      refine ⟨g, hg, one_lt_length_of_two_mem hag hbg (by omega), ?_, ?_⟩
      · exact le_trans (headI_le_mem hgs hag) (le_of_lt hai)
      · exact lt_of_lt_of_le hib (mem_le_getLastI hgs hbg)

/-- C5: with `min_gap > 1` the minimum-gap filter masks exactly the
channels of the unmasked gaps of at most `min_gap` channels between two
masked channels of facing maximal bands (so the bands merge into one fully
masked band, whose final index was already masked); with `min_gap` absent
or at most 1 it is a no-op. -/
theorem min_gap_filter_spec (m : Mask) (mg : Option ℤ) :
    (∀ g : ℤ, mg = some g → 1 < g → ∀ i,
      (maskGet (gapApply mg m) i = true ↔
        maskGet m i = true ∨ bridgedGap m g.toNat i)) ∧
    (∀ g : ℤ, mg = some g → g ≤ 1 → gapApply mg m = m) ∧
    (mg = none → gapApply mg m = m) := by
  refine ⟨?_, ?_, ?_⟩
  · rintro g rfl hg i
    rw [gapApply, if_pos hg]
    exact min_gap_step_char m g.toNat i
  · rintro g rfl hg
    rw [gapApply, if_neg (not_lt.mpr hg)]
  · rintro rfl
    rfl

/-- Witness for C5: `min_gap = 2` merges the bands `{1,2}` and `{5}` of a
7-channel mask across the 2-channel gap `{3,4}`, and `min_gap = 1` is a
no-op. -/
theorem min_gap_filter_spec_witness :
    (1 : ℤ) < 2 ∧
      (maskGet (gapApply (some 2) [false, true, true, false, false, true, false]) 3 = true ↔
        maskGet [false, true, true, false, false, true, false] 3 = true ∨
          bridgedGap [false, true, true, false, false, true, false] (Int.toNat 2) 3) ∧
      gapApply (some 2) [false, true, true, false, false, true, false] =
        [false, true, true, true, true, true, false] ∧
      gapApply (some 1) [false, true, true, false, false, true, false] =
        [false, true, true, false, false, true, false] :=
  ⟨by decide,
    (min_gap_filter_spec [false, true, true, false, false, true, false] (some 2)).1 2 rfl
      (by decide) 3,
    by decide,
    (min_gap_filter_spec [false, true, true, false, false, true, false] (some 1)).2.1 1 rfl
      (by decide)⟩

/-! ## Idempotence of the mask refinement sub-steps (C4) -/

theorem maskGet_mono_min_gap_step {m : Mask} {t i : ℕ} (h : maskGet m i = true) :
    maskGet (min_gap_step m t) i = true :=
  (min_gap_step_char m t i).mpr (Or.inl h)

theorem min_gap_step_idem (m : Mask) (t : ℕ) :
    min_gap_step (min_gap_step m t) t = min_gap_step m t := by
  apply mask_ext
  · rw [length_min_gap_step, length_min_gap_step]
  · intro i
    set r := min_gap_step m t with hr
    have hmono : ∀ j, maskGet m j = true → maskGet r j = true :=
      fun j hj => maskGet_mono_min_gap_step hj
    have hbridge : ∀ j, bridgedGap r t j → maskGet r j = true := by
      rintro j ⟨a, b, haj, hjb, hra, hrb, hbet, hle⟩
      have hbetm : ∀ k, a < k → k < b → maskGet m k = false := by
        intro k h1 h2
        cases hmk : maskGet m k
        · rfl
        · have := hmono k hmk
          rw [hbet k h1 h2] at this
          exact Bool.noConfusion this
      by_cases hma : maskGet m a = true
      · by_cases hmb : maskGet m b = true
        · exact (min_gap_step_char m t j).mpr (Or.inr ⟨a, b, haj, hjb, hma, hmb, hbetm, hle⟩)
        · -- b is masked in r but not in m: b was bridged, between m-masked a', b'
          have := (min_gap_step_char m t b).mp hrb
          rcases this with h | ⟨a', b', hab', hbb', hma', hmb', hbet', _⟩
          · exact absurd h hmb
          · -- a' is m-masked with a < b < b'; a' cannot lie in (a, b)
            have ha'le : a' ≤ a := by
              by_contra hgt
              have h1 : a < a' := Nat.lt_of_not_le hgt
              have h2 : a' < b := hab'
              have := hbetm a' h1 h2
              rw [hma'] at this
              exact Bool.noConfusion this
            have hjb' : j < b' := lt_trans hjb hbb'
            have haj' : a' < j := lt_of_le_of_lt ha'le haj
            by_cases hmj : maskGet m j = true
            · exact hmono j hmj
            · exact (min_gap_step_char m t j).mpr
                (Or.inr ⟨a', b', haj', hjb', hma', hmb', hbet', by omega⟩)
      · -- a is masked in r but not in m: a was bridged, between m-masked a', b'
        have := (min_gap_step_char m t a).mp hra
        rcases this with h | ⟨a', b', ha'a, hab', hma', hmb', hbet', _⟩
        · exact absurd h hma
        · have hb'ge : b ≤ b' := by
            by_contra hlt
            have h1 : a < b' := hab'
            have h2 : b' < b := Nat.lt_of_not_le hlt
            have := hbetm b' h1 h2
            rw [hmb'] at this
            exact Bool.noConfusion this
          have haj' : a' < j := lt_trans ha'a haj
          have hjb' : j < b' := lt_of_lt_of_le hjb hb'ge
          by_cases hmj : maskGet m j = true
          · exact hmono j hmj
          · exact (min_gap_step_char m t j).mpr
              (Or.inr ⟨a', b', haj', hjb', hma', hmb', hbet', by omega⟩)
    by_cases hri : maskGet r i = true
    · rw [hri]
      exact (min_gap_step_char r t i).mpr (Or.inl hri)
    · have hf : maskGet r i = false := by
        cases h : maskGet r i
        · rfl
        · exact absurd h hri
      rw [hf]
      cases hc : maskGet (min_gap_step r t) i
      · rfl
      · rcases (min_gap_step_char r t i).mp hc with h | h
        · exact absurd h hri
        · exact absurd (hbridge i h) hri

theorem length_fmwFold (w : ℕ) : ∀ (groups : List (List ℕ)) (m : Mask),
    (groups.foldl (fun acc g =>
      if g.length ≤ w then setRange acc g.headI (g.getLastI + 1) false else acc) m).length =
      m.length
  | [], _ => rfl
  | g :: gs, m => by
    rw [List.foldl_cons, length_fmwFold w gs]
    by_cases h : g.length ≤ w
    · rw [if_pos h, length_setRange]
    · rw [if_neg h]

theorem maskGet_fmwFold_iff (w : ℕ) : ∀ (groups : List (List ℕ)) (m : Mask) (i : ℕ),
    (maskGet (groups.foldl (fun acc g =>
        if g.length ≤ w then setRange acc g.headI (g.getLastI + 1) false else acc) m) i = true ↔
      maskGet m i = true ∧
        ∀ g ∈ groups, ¬(g.length ≤ w ∧ g.headI ≤ i ∧ i < g.getLastI + 1))
  | [], m, i => by simp
  | g :: gs, m, i => by
    rw [List.foldl_cons]
    by_cases hlen : g.length ≤ w
    · rw [if_pos hlen, maskGet_fmwFold_iff w gs, maskGet_setRange]
      by_cases hi : i < m.length
      · rw [if_pos hi]
        by_cases hin : g.headI ≤ i ∧ i < g.getLastI + 1
        · simp only [if_pos hin]
          constructor
          · intro ⟨h, _⟩
            exact absurd h Bool.false_ne_true
          · intro ⟨_, hforall⟩
            exact absurd ⟨hlen, hin⟩ (hforall g (List.mem_cons_self _ _))
        · simp only [if_neg hin]
          constructor
          · intro ⟨h1, h2⟩
            refine ⟨h1, ?_⟩
            intro g' hg'
            rcases List.mem_cons.mp hg' with rfl | hg''
            · intro ⟨_, hc⟩
              exact hin hc
            · exact h2 g' hg''
          · intro ⟨h1, h2⟩
            exact ⟨h1, fun g' hg' => h2 g' (List.mem_cons_of_mem _ hg')⟩
      · rw [if_neg hi]
        have hmf : maskGet m i = false := maskGet_eq_false_of_le (Nat.le_of_not_lt hi)
        simp [hmf]
    · rw [if_neg hlen, maskGet_fmwFold_iff w gs]
      constructor
      · intro ⟨h1, h2⟩
        refine ⟨h1, ?_⟩
        intro g' hg'
        rcases List.mem_cons.mp hg' with rfl | hg''
        · intro ⟨hc, _⟩
          exact hlen hc
        · exact h2 g' hg''
      · intro ⟨h1, h2⟩
        exact ⟨h1, fun g' hg' => h2 g' (List.mem_cons_of_mem _ hg')⟩

theorem filter_min_width_of_all {m : Mask} {w : ℕ} (hall : m.all (fun b => b) = true) :
    filter_min_width m w = m := by
  rw [filter_min_width, if_pos hall]

theorem length_filter_min_width (m : Mask) (w : ℕ) :
    (filter_min_width m w).length = m.length := by
  rw [filter_min_width]
  by_cases h : m.all (fun b => b) = true
  · rw [if_pos h]
  · rw [if_neg h, length_fmwFold]

theorem gapGroups_one_length {xs : List ℕ} (hs : List.Pairwise (· < ·) xs)
    {g : List ℕ} (hg : g ∈ gapGroups 1 xs) :
    g.length = g.getLastI + 1 - g.headI := by
  conv_lhs => rw [gapGroups_one_interval hs hg]
  rw [List.Ico.length]

/-- The pointwise behaviour of `filter_min_width` on a not-fully-masked
mask: a channel stays masked iff it was masked and its maximal masked band
is wider than `min_width`. -/
theorem filter_min_width_char (m : Mask) (w : ℕ)
    (hnall : ¬ m.all (fun b => b) = true) (i : ℕ) :
    (maskGet (filter_min_width m w) i = true ↔
      maskGet m i = true ∧ inWideBand m w i) := by
  rw [filter_min_width, if_neg hnall, maskGet_fmwFold_iff]
  have hs := maskedIdx_sorted m
  constructor
  · intro ⟨hmi, hforall⟩
    refine ⟨hmi, ?_⟩
    have : i ∈ (gapGroups 1 (maskedIdx m)).flatten := by
      rw [gapGroups_flatten]
      exact mem_maskedIdx.mpr hmi
    obtain ⟨g, hg, hig⟩ := List.mem_flatten.mp this
    have hgs := gapGroups_sorted hs hg
    have hsub := gapGroups_sublist 1 (maskedIdx m) g hg
    have h1 : g.headI ≤ i := headI_le_mem hgs hig
    have h2 : i ≤ g.getLastI := mem_le_getLastI hgs hig
    have hnw : ¬ g.length ≤ w := fun hle =>
      hforall g hg ⟨hle, h1, Nat.lt_succ_of_le h2⟩
    have hlen := gapGroups_one_length hs hg
    refine ⟨g.headI, g.getLastI, h1, h2, by omega, ?_⟩
    intro j hj1 hj2
    have : j ∈ g := by
      rw [gapGroups_one_interval hs hg]
      exact List.Ico.mem.mpr ⟨hj1, Nat.lt_succ_of_le hj2⟩
    exact mem_maskedIdx.mp (hsub.subset this)
  · intro ⟨hmi, a, b, hai, hib, hw, hall⟩
    refine ⟨hmi, ?_⟩
    intro g hg ⟨hshort, hhi, hil⟩
    obtain ⟨g', hg', hcov⟩ := interval_in_one_group (b - a) m a b (by omega) hall
    have hig : i ∈ g := by
      rw [gapGroups_one_interval hs hg]
      exact List.Ico.mem.mpr ⟨hhi, hil⟩
    have hig' : i ∈ g' := hcov i hai hib
    have heq := gapGroups_mem_unique (maskedIdx_nodup m) hg hg' hig hig'
    subst heq
    have hgs := gapGroups_sorted hs hg
    have hha : g.headI ≤ a := headI_le_mem hgs (hcov a le_rfl (by omega))
    have hbl : b ≤ g.getLastI := mem_le_getLastI hgs (hcov b (by omega) le_rfl)
    have hlen := gapGroups_one_length hs hg
    omega

theorem maskGet_mono_filter_min_width {m : Mask} {w j : ℕ}
    (h : maskGet (filter_min_width m w) j = true) : maskGet m j = true := by
  by_cases hall : m.all (fun b => b) = true
  · rwa [filter_min_width_of_all hall] at h
  · exact ((filter_min_width_char m w hall j).mp h).1

theorem filter_min_width_idem (m : Mask) (w : ℕ) :
    filter_min_width (filter_min_width m w) w = filter_min_width m w := by
  by_cases hall : m.all (fun b => b) = true
  · rw [filter_min_width_of_all hall, filter_min_width_of_all hall]
  · set r := filter_min_width m w with hr
    have hrall : ¬ r.all (fun b => b) = true := by
      intro hc
      apply hall
      rw [List.all_eq_true] at hc ⊢
      intro x hx
      by_contra hxf
      obtain ⟨j, hj, rfl⟩ := List.mem_iff_getElem.mp hx
      have hmj : maskGet m j = false := by
        cases hh : maskGet m j
        · rfl
        · rw [maskGet_eq_getElem hj] at hh
          exact absurd hh hxf
      have hjr : j < r.length := by
        rw [hr, length_filter_min_width]
        exact hj
      have hrj : maskGet r j = true := by
        have hmem := List.getElem_mem hjr
        have := hc _ hmem
        rwa [maskGet_eq_getElem hjr]
      have := maskGet_mono_filter_min_width hrj
      rw [hmj] at this
      exact Bool.noConfusion this
    apply mask_ext
    · rw [length_filter_min_width]
    · intro i
      by_cases hri : maskGet r i = true
      · rw [hri]
        obtain ⟨hmi, a, b, hai, hib, hw, hall'⟩ := (filter_min_width_char m w hall i).mp hri
        refine (filter_min_width_char r w hrall i).mpr ⟨hri, a, b, hai, hib, hw, ?_⟩
        intro j hj1 hj2
        exact (filter_min_width_char m w hall j).mpr
          ⟨hall' j hj1 hj2, a, b, hj1, hj2, hw, hall'⟩
      · have hf : maskGet r i = false := by
          cases h : maskGet r i
          · rfl
          · exact absurd h hri
        rw [hf]
        cases hc : maskGet (filter_min_width r w) i
        · rfl
        · exact absurd ((filter_min_width_char r w hrall i).mp hc).1 hri

/-- C4 counterexample: binary dilation is not idempotent.  On the
5-channel mask with only channel 2 masked, one dilation with `dilate = 1`
gives channels 1-3 masked, a second application masks everything. -/
theorem dilation_not_idempotent :
    binary_dilation (binary_dilation [false, false, true, false, false] 1) 1 ≠
      binary_dilation [false, false, true, false, false] 1 := by decide

/-- C4 amended: the minimum-width filter and the minimum-gap filter are
idempotent for every mask and every fixed parameter; the dilation sub-step
is not (each application grows every band by `dilate` more channels, see
the counterexample). -/
theorem refiner_idempotence :
    (∀ (m : Mask) (w : ℕ),
      filter_min_width (filter_min_width m w) w = filter_min_width m w) ∧
    (∀ (m : Mask) (mg : Option ℤ), gapApply mg (gapApply mg m) = gapApply mg m) := by
  refine ⟨filter_min_width_idem, ?_⟩
  intro m mg
  match mg with
  | none => rfl
  | some g =>
    by_cases hg : 1 < g
    · rw [gapApply, gapApply, if_pos hg, if_pos hg]
      exact min_gap_step_idem m g.toNat
    · rw [gapApply, gapApply, if_neg hg, if_neg hg]

/-! ## The Robust Iterative Filter: monotone masks and convergence -/

theorem MArr.ext_parts {s s' : MArr} (hd : s.data = s'.data) (hm : s.mask = s'.mask) :
    s = s' := by
  cases s
  cases s'
  cases hd
  cases hm
  rfl

theorem clipPass_data (p : ClipPars) (s : MArr) : (clipPass p s).data = s.data := rfl

theorem clipPass_wf {p : ClipPars} {s : MArr} (h : s.wf) : (clipPass p s).wf := by
  rw [MArr.wf] at h ⊢
  rw [clipPass]
  simp only [List.length_zipWith]
  omega

theorem count_false_cons_true (l : List Bool) :
    (true :: l).count false = l.count false := by
  simp [List.count_cons]

theorem count_false_cons_false (l : List Bool) :
    (false :: l).count false = l.count false + 1 := by
  simp [List.count_cons]

theorem count_false_zipWith_le (f : Option ℚ → Bool) :
    ∀ (ds : Spectrum) (ms : Mask),
      (List.zipWith (fun x b => b || f x) ds ms).count false ≤ ms.count false
  | [], ms => by simp
  | _ :: _, [] => by simp
  | d :: ds, b :: ms => by
    rw [List.zipWith_cons_cons]
    have ih := count_false_zipWith_le f ds ms
    cases b
    · cases f d
      · rw [Bool.false_or, count_false_cons_false, count_false_cons_false]
        omega
      · rw [Bool.false_or, count_false_cons_true, count_false_cons_false]
        omega
    · rw [Bool.true_or, count_false_cons_true, count_false_cons_true]
      exact ih

theorem count_false_zipWith_lt (f : Option ℚ → Bool) :
    ∀ (ds : Spectrum) (ms : Mask), ds.length = ms.length →
      List.zipWith (fun x b => b || f x) ds ms = ms ∨
        (List.zipWith (fun x b => b || f x) ds ms).count false < ms.count false
  | [], [], _ => Or.inl rfl
  | [], _ :: _, h => by simp at h
  | _ :: _, [], h => by simp at h
  | d :: ds, b :: ms, h => by
    rw [List.zipWith_cons_cons]
    have ih := count_false_zipWith_lt f ds ms (by simpa using h)
    have hle := count_false_zipWith_le f ds ms
    rcases ih with heq | hlt
    · rw [heq]
      cases hb : b
      · cases hf : f d
        · left
          simp
        · right
          rw [Bool.false_or, count_false_cons_true, count_false_cons_false]
          omega
      · left
        simp
    · right
      cases hb : b
      · cases f d
        · rw [Bool.false_or, count_false_cons_false, count_false_cons_false]
          omega
        · rw [Bool.false_or, count_false_cons_true, count_false_cons_false]
          omega
      · rw [Bool.true_or, count_false_cons_true, count_false_cons_true]
        exact hlt

theorem nUnmasked_clipPass_le (p : ClipPars) (s : MArr) :
    nUnmasked (clipPass p s) ≤ nUnmasked s :=
  count_false_zipWith_le _ s.data s.mask

theorem clipPass_mask_or_lt {p : ClipPars} {s : MArr} (h : s.wf) :
    (clipPass p s).mask = s.mask ∨ nUnmasked (clipPass p s) < nUnmasked s :=
  count_false_zipWith_lt _ s.data s.mask h

theorem clipPass_eq_of_mask {p : ClipPars} {s : MArr}
    (h : (clipPass p s).mask = s.mask) : clipPass p s = s :=
  MArr.ext_parts (clipPass_data p s) h

theorem sigma_clip_iters_fix {p : ClipPars} {s : MArr}
    (h : (clipPass p s).mask = s.mask) : ∀ k, sigma_clip_iters p k s = s
  | 0 => rfl
  | k + 1 => by simp [sigma_clip_iters, h]

theorem sigma_clip_iters_succ (p : ClipPars) : ∀ (n : ℕ) (s : MArr),
    sigma_clip_iters p (n + 1) s =
      (if (clipPass p (sigma_clip_iters p n s)).mask = (sigma_clip_iters p n s).mask
       then sigma_clip_iters p n s else clipPass p (sigma_clip_iters p n s))
  | 0, s => by
    simp only [sigma_clip_iters]
  | n + 1, s => by
    by_cases hfix : (clipPass p s).mask = s.mask
    · rw [sigma_clip_iters_fix hfix (n + 1 + 1), sigma_clip_iters_fix hfix (n + 1),
        if_pos hfix]
    · conv_lhs => simp only [sigma_clip_iters]
      rw [if_neg hfix]
      conv_rhs => rw [show sigma_clip_iters p (n + 1) s =
        sigma_clip_iters p n (clipPass p s) by simp only [sigma_clip_iters]; rw [if_neg hfix]]
      exact sigma_clip_iters_succ p n (clipPass p s)

theorem sigma_clip_iters_data (p : ClipPars) : ∀ (n : ℕ) (s : MArr),
    (sigma_clip_iters p n s).data = s.data
  | 0, _ => rfl
  | n + 1, s => by
    simp only [sigma_clip_iters]
    by_cases hfix : (clipPass p s).mask = s.mask
    · rw [if_pos hfix]
    · rw [if_neg hfix, sigma_clip_iters_data p n, clipPass_data]

theorem sigma_clip_iters_wf (p : ClipPars) : ∀ (n : ℕ) {s : MArr}, s.wf →
    (sigma_clip_iters p n s).wf
  | 0, _, h => h
  | n + 1, s, h => by
    simp only [sigma_clip_iters]
    by_cases hfix : (clipPass p s).mask = s.mask
    · rw [if_pos hfix]
      exact h
    · rw [if_neg hfix]
      exact sigma_clip_iters_wf p n (clipPass_wf h)

theorem cSeq_succ_le (p : ClipPars) (s : MArr) (n : ℕ) :
    cSeq p s (n + 1) ≤ cSeq p s n := by
  rw [cSeq, cSeq, sigma_clip_iters_succ]
  by_cases hfix : (clipPass p (sigma_clip_iters p n s)).mask = (sigma_clip_iters p n s).mask
  · rw [if_pos hfix]
  · rw [if_neg hfix]
    exact nUnmasked_clipPass_le p _

theorem sigma_clip_iters_converged (p : ClipPars) : ∀ (fuel : ℕ) (s : MArr), s.wf →
    nUnmasked s < fuel →
    clipPass p (sigma_clip_iters p fuel s) = sigma_clip_iters p fuel s
  | 0, s, _, hlt => absurd hlt (Nat.not_lt_zero _)
  | fuel + 1, s, hwf, hlt => by
    simp only [sigma_clip_iters]
    by_cases hfix : (clipPass p s).mask = s.mask
    · rw [if_pos hfix]
      exact clipPass_eq_of_mask hfix
    · rw [if_neg hfix]
      apply sigma_clip_iters_converged p fuel (clipPass p s) (clipPass_wf hwf)
      rcases clipPass_mask_or_lt hwf with h | h
      · exact absurd h hfix
      · omega

theorem sigma_clip_iters_stable (p : ClipPars) (s : MArr) (n : ℕ)
    (h : clipPass p (sigma_clip_iters p n s) = sigma_clip_iters p n s) :
    ∀ k, n ≤ k → sigma_clip_iters p k s = sigma_clip_iters p n s := by
  intro k hk
  induction k, hk using Nat.le_induction with
  | base => rfl
  | succ k hnk ih =>
    rw [sigma_clip_iters_succ, ih, if_pos (congrArg MArr.mask h)]

/-! ## The Trajectory Recorder (C6, C7) -/

theorem getLast?_range_map {α : Type} (f : ℕ → α) (n : ℕ) (h : 1 ≤ n) :
    ((List.range n).map f).getLast? = some (f (n - 1)) := by
  obtain ⟨k, rfl⟩ : ∃ k, n = k + 1 := ⟨n - 1, by omega⟩
  rw [List.range_succ, List.map_append]
  simp

theorem range_map_snoc {α : Type} (f : ℕ → α) (i : ℕ) :
    (List.range i).map f ++ [f i] = (List.range (i + 1)).map f := by
  rw [List.range_succ, List.map_append]
  rfl

/-- The recorder loop, run from iteration count `i` with the records for
counts `0 .. i-1` accumulated, stops exactly at the first stalling count
`K` and returns the records for `0 .. K-1`. -/
theorem scStepsAux_spec (p : ClipPars) (spec : MArr) (K : ℕ)
    (hstop : cSeq p spec K = cSeq p spec (K - 1))
    (hmin : ∀ j, 1 ≤ j → j < K → cSeq p spec j ≠ cSeq p spec (j - 1)) :
    ∀ (fuel i : ℕ), 1 ≤ i → i ≤ K → K - i < fuel →
      scStepsAux p spec fuel i
        ⟨(List.range i).map (cSeq p spec),
         (List.range i).map
           (fun j => medianQ (maVals ⟨spec.data, (sigma_clip_iters p j spec).mask⟩)),
         (List.range i).map (fun j => meanQ (maVals (sigma_clip_iters p j spec))),
         (List.range i).map (fun j => varQ (maVals (sigma_clip_iters p j spec)))⟩ =
        ⟨(List.range K).map (cSeq p spec),
         (List.range K).map
           (fun j => medianQ (maVals ⟨spec.data, (sigma_clip_iters p j spec).mask⟩)),
         (List.range K).map (fun j => meanQ (maVals (sigma_clip_iters p j spec))),
         (List.range K).map (fun j => varQ (maVals (sigma_clip_iters p j spec)))⟩ := by
  intro fuel
  induction fuel with
  | zero =>
    intro i _ _ hlt
    exact absurd hlt (Nat.not_lt_zero _)
  | succ fuel ih =>
    intro i hi1 hiK hfuel
    simp only [scStepsAux]
    rw [getLast?_range_map (cSeq p spec) i hi1]
    rcases Nat.lt_or_ge i K with hiltK | hige
    · have hne : cSeq p spec i ≠ cSeq p spec (i - 1) := hmin i hi1 hiltK
      rw [if_neg (by
        intro hc
        exact hne ((Option.some.injEq _ _ ▸ hc : cSeq p spec (i - 1) = _).symm))]
      have hrw1 := range_map_snoc (cSeq p spec) i
      have hrw2 := range_map_snoc
        (fun j => medianQ (maVals ⟨spec.data, (sigma_clip_iters p j spec).mask⟩)) i
      have hrw3 := range_map_snoc (fun j => meanQ (maVals (sigma_clip_iters p j spec))) i
      have hrw4 := range_map_snoc (fun j => varQ (maVals (sigma_clip_iters p j spec))) i
      rw [show nUnmasked (sigma_clip_iters p i spec) = cSeq p spec i from rfl]
      rw [hrw1, hrw2, hrw3, hrw4]
      exact ih (i + 1) (by omega) (by omega) (by omega)
    · have hiK' : i = K := le_antisymm hiK hige
      subst hiK'
      rw [show nUnmasked (sigma_clip_iters p i spec) = cSeq p spec i from rfl,
        if_pos (congrArg some hstop.symm)]

/-- The result of `get_sigma_clip_steps`: all four recorded sequences are
the statistics of `sigma_clip_iters` at iteration counts `0 .. K-1`,
where `K` is the first count at which the unmasked count stalls. -/
theorem get_sigma_clip_steps_eq (p : ClipPars) (s : MArr) (hwf : s.wf) :
    ∃ K, 1 ≤ K ∧ K ≤ nUnmasked s + 2 ∧
      cSeq p s K = cSeq p s (K - 1) ∧
      (∀ j, 1 ≤ j → j < K → cSeq p s j ≠ cSeq p s (j - 1)) ∧
      get_sigma_clip_steps p s =
        ⟨(List.range K).map (cSeq p s),
         (List.range K).map
           (fun j => medianQ (maVals ⟨s.data, (sigma_clip_iters p j s).mask⟩)),
         (List.range K).map (fun j => meanQ (maVals (sigma_clip_iters p j s))),
         (List.range K).map (fun j => varQ (maVals (sigma_clip_iters p j s)))⟩ := by
  have hconv : clipPass p (sigma_clip_iters p (nUnmasked s + 1) s) =
      sigma_clip_iters p (nUnmasked s + 1) s :=
    sigma_clip_iters_converged p (nUnmasked s + 1) s hwf (by omega)
  have hstable := sigma_clip_iters_stable p s (nUnmasked s + 1) hconv
  have hP : ∃ i, 1 ≤ i ∧ cSeq p s i = cSeq p s (i - 1) := by
    refine ⟨nUnmasked s + 2, by omega, ?_⟩
    rw [show nUnmasked s + 2 - 1 = nUnmasked s + 1 by omega]
    rw [cSeq, cSeq, hstable (nUnmasked s + 2) (by omega)]
  classical
  set K := Nat.find hP with hK
  have hspec := Nat.find_spec hP
  have hKle : K ≤ nUnmasked s + 2 := Nat.find_le ⟨by omega, by
    rw [show nUnmasked s + 2 - 1 = nUnmasked s + 1 by omega]
    rw [cSeq, cSeq, hstable (nUnmasked s + 2) (by omega)]⟩
  refine ⟨K, hspec.1, hKle, hspec.2, ?_, ?_⟩
  · intro j hj1 hjK
    have := Nat.find_min hP hjK
    rw [not_and] at this
    exact this hj1
  · rw [get_sigma_clip_steps]
    have hinit : (⟨[nUnmasked s], [medianQ (maVals s)], [meanQ (maVals s)],
        [varQ (maVals s)]⟩ : Traj) =
        ⟨(List.range 1).map (cSeq p s),
         (List.range 1).map
           (fun j => medianQ (maVals ⟨s.data, (sigma_clip_iters p j s).mask⟩)),
         (List.range 1).map (fun j => meanQ (maVals (sigma_clip_iters p j s))),
         (List.range 1).map (fun j => varQ (maVals (sigma_clip_iters p j s)))⟩ := rfl
    rw [hinit]
    exact scStepsAux_spec p s K hspec.2
      (fun j hj1 hjK => by
        have := Nat.find_min hP hjK
        rw [not_and] at this
        exact this hj1)
      (nUnmasked s + 2) 1 le_rfl hspec.1 (by omega)

/-- C6: the recorded unmasked-count sequence of the Trajectory Recorder is
strictly decreasing (in particular non-increasing), and the recorder stops
at the first iteration count `K` whose unmasked count equals that of the
previous count, having recorded the counts for `0 .. K-1`. -/
theorem trajectory_spec (p : ClipPars) (s : MArr) (hwf : s.wf) :
    ∃ K, 1 ≤ K ∧ cSeq p s K = cSeq p s (K - 1) ∧
      (∀ j, 1 ≤ j → j < K → cSeq p s j ≠ cSeq p s (j - 1)) ∧
      (get_sigma_clip_steps p s).npoints = (List.range K).map (cSeq p s) ∧
      List.Chain' (fun a b => b < a) (get_sigma_clip_steps p s).npoints := by
  obtain ⟨K, hK1, _, hstop, hmin, heq⟩ := get_sigma_clip_steps_eq p s hwf
  refine ⟨K, hK1, hstop, hmin, by rw [heq], ?_⟩
  rw [heq]
  show List.Chain' (fun a b => b < a) ((List.range K).map (cSeq p s))
  rw [List.chain'_map]
  obtain ⟨K', rfl⟩ : ∃ K', K = K' + 1 := ⟨K - 1, by omega⟩
  rw [List.chain'_range_succ]
  intro j hj
  have hne : cSeq p s (j + 1) ≠ cSeq p s j := by
    have := hmin (j + 1) (by omega) (by omega)
    rwa [show j + 1 - 1 = j by omega] at this
  exact lt_of_le_of_ne (cSeq_succ_le p s j) hne

/-- Witness for C6 at a concrete 4-channel spectrum with the default-style
asymmetric parameters. -/
theorem trajectory_spec_witness :
    (MArr.mk [some 0, some 0, some 1, some 5] [false, false, false, false]).wf ∧
      (∃ K, 1 ≤ K ∧
        cSeq ⟨3, 1, .median⟩ ⟨[some 0, some 0, some 1, some 5],
          [false, false, false, false]⟩ K =
          cSeq ⟨3, 1, .median⟩ ⟨[some 0, some 0, some 1, some 5],
            [false, false, false, false]⟩ (K - 1) ∧
        (∀ j, 1 ≤ j → j < K →
          cSeq ⟨3, 1, .median⟩ ⟨[some 0, some 0, some 1, some 5],
            [false, false, false, false]⟩ j ≠
            cSeq ⟨3, 1, .median⟩ ⟨[some 0, some 0, some 1, some 5],
              [false, false, false, false]⟩ (j - 1)) ∧
        (get_sigma_clip_steps ⟨3, 1, .median⟩ ⟨[some 0, some 0, some 1, some 5],
          [false, false, false, false]⟩).npoints =
          (List.range K).map (cSeq ⟨3, 1, .median⟩ ⟨[some 0, some 0, some 1, some 5],
            [false, false, false, false]⟩) ∧
        List.Chain' (fun a b => b < a)
          (get_sigma_clip_steps ⟨3, 1, .median⟩ ⟨[some 0, some 0, some 1, some 5],
            [false, false, false, false]⟩).npoints) :=
  ⟨rfl, trajectory_spec ⟨3, 1, .median⟩
    ⟨[some 0, some 0, some 1, some 5], [false, false, false, false]⟩ rfl⟩

/-- C7: the final recorded trajectory point is the fully converged state
of the Robust Iterative Filter: the unbounded run (`maxiters = None`) is a
fixed point of the clip pass reached after finitely many passes, and its
unmasked count, median, mean and (squared) spread are exactly the last
entries of the four recorded sequences. -/
theorem trajectory_final_converged (p : ClipPars) (s : MArr) (hwf : s.wf) :
    ∃ i, sigma_clip p none s = sigma_clip_iters p i s ∧
      clipPass p (sigma_clip p none s) = sigma_clip p none s ∧
      (get_sigma_clip_steps p s).npoints.getLast? =
        some (nUnmasked (sigma_clip p none s)) ∧
      (get_sigma_clip_steps p s).medians.getLast? =
        some (medianQ (maVals ⟨s.data, (sigma_clip p none s).mask⟩)) ∧
      (get_sigma_clip_steps p s).means.getLast? =
        some (meanQ (maVals (sigma_clip p none s))) ∧
      (get_sigma_clip_steps p s).stds.getLast? =
        some (varQ (maVals (sigma_clip p none s))) := by
  obtain ⟨K, hK1, hKle, hstop, hmin, heq⟩ := get_sigma_clip_steps_eq p s hwf
  have hFdef : sigma_clip p none s = sigma_clip_iters p (nUnmasked s + 1) s := rfl
  have hwfK : (sigma_clip_iters p (K - 1) s).wf := sigma_clip_iters_wf p (K - 1) hwf
  -- the state at count K-1 is already a fixed point of the clip pass
  have hfixK : clipPass p (sigma_clip_iters p (K - 1) s) = sigma_clip_iters p (K - 1) s := by
    have hsnoc := sigma_clip_iters_succ p (K - 1) s
    rw [show K - 1 + 1 = K by omega] at hsnoc
    by_cases hfix : (clipPass p (sigma_clip_iters p (K - 1) s)).mask =
        (sigma_clip_iters p (K - 1) s).mask
    · exact clipPass_eq_of_mask hfix
    · exfalso
      rcases clipPass_mask_or_lt hwfK with h | h
      · exact hfix h
      · have : cSeq p s K < cSeq p s (K - 1) := by
          rw [cSeq, cSeq, hsnoc, if_neg hfix]
          exact h
        omega
  have hstable := sigma_clip_iters_stable p s (K - 1) hfixK
  have hF : sigma_clip p none s = sigma_clip_iters p (K - 1) s := by
    rw [hFdef]
    exact hstable (nUnmasked s + 1) (by omega)
  refine ⟨K - 1, hF, by rw [hF]; exact hfixK, ?_, ?_, ?_, ?_⟩
  · rw [heq]
    show ((List.range K).map (cSeq p s)).getLast? = _
    rw [getLast?_range_map _ K hK1, hF]
    rfl
  · rw [heq]
    show ((List.range K).map
      (fun j => medianQ (maVals ⟨s.data, (sigma_clip_iters p j s).mask⟩))).getLast? = _
    rw [getLast?_range_map _ K hK1, hF]
  · rw [heq]
    show ((List.range K).map
      (fun j => meanQ (maVals (sigma_clip_iters p j s)))).getLast? = _
    rw [getLast?_range_map _ K hK1, hF]
  · rw [heq]
    show ((List.range K).map
      (fun j => varQ (maVals (sigma_clip_iters p j s)))).getLast? = _
    rw [getLast?_range_map _ K hK1, hF]

/-- Witness for C7 at the same concrete spectrum. -/
theorem trajectory_final_converged_witness :
    (MArr.mk [some 0, some 0, some 1, some 5] [false, false, false, false]).wf ∧
      (∃ i, sigma_clip ⟨3, 1, .median⟩ none ⟨[some 0, some 0, some 1, some 5],
          [false, false, false, false]⟩ =
          sigma_clip_iters ⟨3, 1, .median⟩ i ⟨[some 0, some 0, some 1, some 5],
            [false, false, false, false]⟩ ∧
        clipPass ⟨3, 1, .median⟩ (sigma_clip ⟨3, 1, .median⟩ none
            ⟨[some 0, some 0, some 1, some 5], [false, false, false, false]⟩) =
          sigma_clip ⟨3, 1, .median⟩ none ⟨[some 0, some 0, some 1, some 5],
            [false, false, false, false]⟩ ∧
        (get_sigma_clip_steps ⟨3, 1, .median⟩ ⟨[some 0, some 0, some 1, some 5],
            [false, false, false, false]⟩).npoints.getLast? =
          some (nUnmasked (sigma_clip ⟨3, 1, .median⟩ none
            ⟨[some 0, some 0, some 1, some 5], [false, false, false, false]⟩)) ∧
        (get_sigma_clip_steps ⟨3, 1, .median⟩ ⟨[some 0, some 0, some 1, some 5],
            [false, false, false, false]⟩).medians.getLast? =
          some (medianQ (maVals ⟨[some 0, some 0, some 1, some 5],
            (sigma_clip ⟨3, 1, .median⟩ none ⟨[some 0, some 0, some 1, some 5],
              [false, false, false, false]⟩).mask⟩)) ∧
        (get_sigma_clip_steps ⟨3, 1, .median⟩ ⟨[some 0, some 0, some 1, some 5],
            [false, false, false, false]⟩).means.getLast? =
          some (meanQ (maVals (sigma_clip ⟨3, 1, .median⟩ none
            ⟨[some 0, some 0, some 1, some 5], [false, false, false, false]⟩))) ∧
        (get_sigma_clip_steps ⟨3, 1, .median⟩ ⟨[some 0, some 0, some 1, some 5],
            [false, false, false, false]⟩).stds.getLast? =
          some (varQ (maVals (sigma_clip ⟨3, 1, .median⟩ none
            ⟨[some 0, some 0, some 1, some 5], [false, false, false, false]⟩)))) :=
  ⟨rfl, trajectory_final_converged ⟨3, 1, .median⟩
    ⟨[some 0, some 0, some 1, some 5], [false, false, false, false]⟩ rfl⟩

/-! ## The returned continuum value and spread (C1) -/

/-- C1 amended: whatever the accepted center-statistic selection and the
other parameters, a successful `find_continuum` returns as continuum
value the MEAN over the unmasked samples of the final refined mask (after
dilation, minimum-width and minimum-gap filtering), and as spread their
standard deviation (carried here as its exact square, the variance) — not
the Robust Iterative Filter's final center-statistic value, and not
statistics of the filter's own (unrefined) mask. -/
theorem find_continuum_returns_refined_mean (spectrum : Spectrum)
    (edges dilate min_width : ℕ) (min_gap : Option ℤ)
    (flagchans : Option (List (ℕ × ℕ))) (invalid_values : Option (List ℚ))
    (pars : ClipPars) (niter : Option ℕ) (s : MArr) (c v : ℚ)
    (h : find_continuum spectrum edges dilate min_width min_gap flagchans invalid_values
      pars niter = .ok (s, c, v)) :
    c = meanQ (maVals s) ∧ v = varQ (maVals s) := by
  cases hbm : basic_masking spectrum edges flagchans invalid_values with
  | error e =>
    simp only [find_continuum, hbm] at h
    exact absurd h (by simp)
  | ok spec =>
    simp only [find_continuum, hbm] at h
    by_cases hd : (sigma_clip pars niter spec).data.length ≤ 2 * dilate
    · rw [if_pos hd] at h
      exact absurd h (by simp)
    · rw [if_neg hd] at h
      simp only [Except.ok.injEq, Prod.mk.injEq] at h
      obtain ⟨h1, h2, h3⟩ := h
      subst h1
      exact ⟨h2.symm, h3.symm⟩

/-- Concrete evaluation helper: on the spectrum `[0, 0, 1, 5]` with no
basic masking and huge symmetric multipliers, one clip pass masks
nothing, so the filter converges immediately. -/
theorem sigma_clip_median_eval :
    sigma_clip ⟨10, 10, .median⟩ none
      ⟨[some 0, some 0, some 1, some 5], [false, false, false, false]⟩ =
      ⟨[some 0, some 0, some 1, some 5], [false, false, false, false]⟩ := by
  have hmv : maVals ⟨[some 0, some 0, some 1, some 5], [false, false, false, false]⟩ =
      [0, 0, 1, 5] := rfl
  have hc : cenApply CenStat.median
      ⟨[some 0, some 0, some 1, some 5], [false, false, false, false]⟩ = 1 / 2 := by
    rw [cenApply, hmv]
    norm_num [medianQ, List.insertionSort, List.orderedInsert]
  have hv : varQ (maVals ⟨[some 0, some 0, some 1, some 5], [false, false, false, false]⟩) =
      17 / 4 := by
    rw [hmv]
    norm_num [varQ, meanQ]
  have hfix : clipPass ⟨10, 10, .median⟩
      ⟨[some 0, some 0, some 1, some 5], [false, false, false, false]⟩ =
      ⟨[some 0, some 0, some 1, some 5], [false, false, false, false]⟩ := by
    simp only [clipPass, hc, hv]
    norm_num [List.zipWith]
  show sigma_clip_iters _ _ _ = _
  exact sigma_clip_iters_fix (congrArg MArr.mask hfix) _

/-- Concrete evaluation helper: the full pipeline on `[0, 0, 1, 5]` with
censtat = median, no refinement, returns the mean `3/2` and variance
`17/4` over the (unchanged) unmasked samples. -/
theorem find_continuum_median_eval :
    find_continuum [some 0, some 0, some 1, some 5] 0 0 0 none none none
      ⟨10, 10, .median⟩ none =
      .ok (⟨[some 0, some 0, some 1, some 5], [false, false, false, false]⟩,
        3 / 2, 17 / 4) := by
  have hmv : maVals ⟨[some 0, some 0, some 1, some 5], [false, false, false, false]⟩ =
      [0, 0, 1, 5] := rfl
  have hbm : basic_masking [some 0, some 0, some 1, some 5] 0 none none =
      .ok ⟨[some 0, some 0, some 1, some 5], [false, false, false, false]⟩ := rfl
  simp only [find_continuum, hbm, sigma_clip_median_eval]
  norm_num [gapApply, hmv, meanQ, varQ]

/-- C1 counterexample: with `censtat = median` on the spectrum
`[0, 0, 1, 5]` (no edge masking, multipliers large enough that the filter
masks nothing), the pipeline's returned continuum value is the mean `3/2`,
while the Robust Iterative Filter's final center-statistic value — the
median over the converged unmasked samples — is `1/2`.  The claim that the
returned continuum value is the filter's final center-statistic value is
therefore false. -/
theorem find_continuum_not_censtat :
    find_continuum [some 0, some 0, some 1, some 5] 0 0 0 none none none
      ⟨10, 10, .median⟩ none =
      .ok (⟨[some 0, some 0, some 1, some 5], [false, false, false, false]⟩,
        3 / 2, 17 / 4) ∧
    cenApply .median (sigma_clip ⟨10, 10, .median⟩ none
      ⟨[some 0, some 0, some 1, some 5], [false, false, false, false]⟩) = 1 / 2 ∧
    (3 / 2 : ℚ) ≠ 1 / 2 := by
  refine ⟨find_continuum_median_eval, ?_, by norm_num⟩
  rw [sigma_clip_median_eval]
  have hmv : maVals ⟨[some 0, some 0, some 1, some 5], [false, false, false, false]⟩ =
      [0, 0, 1, 5] := rfl
  rw [cenApply, hmv]
  norm_num [medianQ, List.insertionSort, List.orderedInsert]

/-- Witness for the amended C1 at the same concrete input. -/
theorem find_continuum_returns_refined_mean_witness :
    find_continuum [some 0, some 0, some 1, some 5] 0 0 0 none none none
      ⟨10, 10, .median⟩ none =
      .ok (⟨[some 0, some 0, some 1, some 5], [false, false, false, false]⟩,
        3 / 2, 17 / 4) ∧
    ((3 / 2 : ℚ) = meanQ (maVals ⟨[some 0, some 0, some 1, some 5],
        [false, false, false, false]⟩) ∧
      (17 / 4 : ℚ) = varQ (maVals ⟨[some 0, some 0, some 1, some 5],
        [false, false, false, false]⟩)) :=
  ⟨find_continuum_median_eval,
    find_continuum_returns_refined_mean [some 0, some 0, some 1, some 5] 0 0 0 none none
      none ⟨10, 10, .median⟩ none
      ⟨[some 0, some 0, some 1, some 5], [false, false, false, false]⟩ (3 / 2) (17 / 4)
      find_continuum_median_eval⟩

/-! ## The frequency-range encoder's error behaviour (C9) -/

theorem isOk_ok {α : Type} (a : α) : (Except.ok a : Except PyErr α).isOk = true := rfl

theorem isOk_error {α : Type} (e : PyErr) :
    (Except.error e : Except PyErr α).isOk = false := rfl

theorem freqRanges_isOk_iff (freq : List ℚ) (delta : ℚ) : ∀ (rs : List (ℕ × ℕ)),
    ((freqRanges freq delta rs).isOk = true ↔
      ∀ r ∈ rs, r.1 < freq.length ∧ r.2 < freq.length)
  | [] => by
    rw [freqRanges, isOk_ok]
    simp
  | r :: rs => by
    have ih := freqRanges_isOk_iff freq delta rs
    by_cases h1 : r.1 < freq.length
    · by_cases h2 : r.2 < freq.length
      · have e1 : freq[r.1]? = some freq[r.1] := List.getElem?_eq_getElem h1
        have e2 : freq[r.2]? = some freq[r.2] := List.getElem?_eq_getElem h2
        cases hrec : freqRanges freq delta rs with
        | ok rest =>
          rw [hrec] at ih
          simp only [freqRanges, e1, e2, hrec, isOk_ok]
          constructor
          · intro _ r' hr'
            rcases List.mem_cons.mp hr' with rfl | hr''
            · exact ⟨h1, h2⟩
            · exact ih.mp rfl r' hr''
          · intro _
            trivial
        | error e =>
          rw [hrec] at ih
          simp only [freqRanges, e1, e2, hrec, isOk_error]
          constructor
          · intro hfalse
            exact absurd hfalse Bool.false_ne_true
          · intro hall
            have hrest : ∀ r' ∈ rs, r'.1 < freq.length ∧ r'.2 < freq.length :=
              fun r' hr' => hall r' (List.mem_cons_of_mem _ hr')
            exact absurd (ih.mpr hrest)
              (by rw [isOk_error]; exact Bool.false_ne_true)
      · have e2 : freq[r.2]? = none := List.getElem?_eq_none (Nat.le_of_not_lt h2)
        cases hx : freq[r.1]? with
        | some fa =>
          simp only [freqRanges, e2, hx, isOk_error]
          constructor
          · intro hfalse
            exact absurd hfalse Bool.false_ne_true
          · intro hall
            exact absurd (hall r (List.mem_cons_self _ _)).2 h2
        | none =>
          simp only [freqRanges, e2, hx, isOk_error]
          constructor
          · intro hfalse
            exact absurd hfalse Bool.false_ne_true
          · intro hall
            exact absurd (hall r (List.mem_cons_self _ _)).2 h2
    · have e1 : freq[r.1]? = none := List.getElem?_eq_none (Nat.le_of_not_lt h1)
      cases hx : freq[r.2]? with
      | some fb =>
        simp only [freqRanges, e1, hx, isOk_error]
        constructor
        · intro hfalse
          exact absurd hfalse Bool.false_ne_true
        · intro hall
          exact absurd (hall r (List.mem_cons_self _ _)).1 h1
      | none =>
        simp only [freqRanges, e1, hx, isOk_error]
        constructor
        · intro hfalse
          exact absurd hfalse Bool.false_ne_true
        · intro hall
          exact absurd (hall r (List.mem_cons_self _ _)).1 h1

/-- C9 amended: `get_freq_flags` performs no length-equality check.  It
succeeds iff the frequency axis has at least two entries (it always reads
`freq[0]` and `freq[1]` for the half-channel delta) and every masked
channel index is within the frequency axis; in particular it never raises
when the two lengths are equal and at least 2 — but it raises on equal
lengths of 0 or 1 and can succeed on unequal lengths. -/
theorem get_freq_flags_error_iff (freq : List ℚ) (spectrum : MArr) :
    ((get_freq_flags freq spectrum).isOk = true ↔
      2 ≤ freq.length ∧
        ∀ i, maskGet spectrum.mask i = true → i < freq.length) ∧
    (spectrum.mask.length = freq.length → 2 ≤ freq.length →
      (get_freq_flags freq spectrum).isOk = true) := by
  have hmain : (get_freq_flags freq spectrum).isOk = true ↔
      2 ≤ freq.length ∧ ∀ i, maskGet spectrum.mask i = true → i < freq.length := by
    by_cases hlen : 2 ≤ freq.length
    · have e0 : freq[0]? = some freq[0] := List.getElem?_eq_getElem (by omega)
      have e1 : freq[1]? = some freq[1] := List.getElem?_eq_getElem (by omega)
      rw [get_freq_flags, e0, e1, freqRanges_isOk_iff]
      constructor
      · intro hall
        refine ⟨hlen, ?_⟩
        intro i hmi
        have : i ∈ (gapGroups 1 (maskedIdx spectrum.mask)).flatten := by
          rw [gapGroups_flatten]
          exact mem_maskedIdx.mpr hmi
        obtain ⟨g, hg, hig⟩ := List.mem_flatten.mp this
        have hgs := gapGroups_sorted (maskedIdx_sorted spectrum.mask) hg
        have := hall (g.headI, g.getLastI) (List.mem_map.mpr ⟨g, hg, rfl⟩)
        have hle : i ≤ g.getLastI := mem_le_getLastI hgs hig
        omega
      · intro ⟨_, hbound⟩
        intro r hr
        have hband := group_chans_sound hr
        have h1 : maskGet spectrum.mask r.1 = true :=
          hband.2.2.1 r.1 le_rfl hband.1
        have h2 : maskGet spectrum.mask r.2 = true :=
          hband.2.2.1 r.2 hband.1 le_rfl
        exact ⟨hbound r.1 h1, hbound r.2 h2⟩
    · rw [get_freq_flags]
      rcases Nat.lt_or_ge freq.length 1 with h0 | h0
      · have e0 : freq[0]? = none := List.getElem?_eq_none (by omega)
        rw [e0]
        simp only [Except.isOk]
        constructor
        · intro hfalse
          exact absurd hfalse Bool.false_ne_true
        · intro ⟨hc, _⟩
          exact absurd hc hlen
      · have e1 : freq[1]? = none := List.getElem?_eq_none (by omega)
        rw [e1]
        cases hx : freq[0]? <;>
          · simp only [Except.isOk]
            constructor
            · intro hfalse
              exact absurd hfalse Bool.false_ne_true
            · intro ⟨hc, _⟩
              exact absurd hc hlen
  refine ⟨hmain, ?_⟩
  intro heq h2
  rw [hmain]
  exact ⟨h2, fun i hmi => heq ▸ maskGet_lt_length hmi⟩

/-- C9 counterexample: the claim "fails iff mask length differs from
frequency-axis length" is false in both directions: a 2-entry mask with a
3-entry frequency axis succeeds, and a 1-entry mask with a 1-entry
frequency axis (equal lengths) raises `IndexError` on the half-channel
delta `freq[1]`. -/
theorem get_freq_flags_not_length_check :
    (([false, false] : Mask).length ≠ ([1, 2, 3] : List ℚ).length ∧
      get_freq_flags [1, 2, 3] ⟨[], [false, false]⟩ = .ok []) ∧
    (([true] : Mask).length = ([1] : List ℚ).length ∧
      get_freq_flags [1] ⟨[], [true]⟩ = .error .indexError) :=
  ⟨⟨by decide, rfl⟩, ⟨rfl, rfl⟩⟩

/-- Witness for the amended C9: equal lengths of at least 2 succeed. -/
theorem get_freq_flags_error_iff_witness :
    (([false, true, true] : Mask).length = ([1, 2, 3] : List ℚ).length ∧
      2 ≤ ([1, 2, 3] : List ℚ).length) ∧
      (get_freq_flags [1, 2, 3] ⟨[], [false, true, true]⟩).isOk = true :=
  ⟨⟨rfl, by decide⟩,
    (get_freq_flags_error_iff [1, 2, 3] ⟨[], [false, true, true]⟩).2 rfl (by decide)⟩

end GoCont
